import Mathlib

/-!
Verification of the picture-ai interactive image layering backend.

Shallow embedding conventions:
- Images are `List (List Px)` with `Px = ℕ × ℕ × ℕ` (uint8 channel triples);
  masks are `List (List ℕ)` (uint8 values).  Out-of-range accesses default
  to 0, and rectangularity is an explicit hypothesis where it matters.
- numpy float32 / float64 arithmetic is modelled exactly in ℚ; `astype(np.uint8)`
  after a clip to [0, 255] is truncation toward zero, i.e. the floor.
- Euclidean distances that the source only ever compares against thresholds
  (cv2.distanceTransform DIST_L2, np.sqrt of squared sums) are represented by
  their squares, compared against squared thresholds: for nonnegative a, b,
  sqrt a <= b iff a <= b * b, so the representation is order-exact.
-/

namespace PictureAi

/-- One pixel: (channel 0, channel 1, channel 2) uint8 values. -/
abbrev Px : Type := ℕ × ℕ × ℕ

/-- Single-channel buffer (mask / gray plane). -/
abbrev Grid : Type := List (List ℕ)

/-- Three-channel image buffer. -/
abbrev Image : Type := List (List Px)

/-- Mask access, defaulting to 0 outside the stored rows/columns. -/
def gget (g : Grid) (y x : ℕ) : ℕ := (g.getD y []).getD x 0

/-- Pixel access, defaulting to (0,0,0) outside the stored rows/columns. -/
def pget (img : Image) (y x : ℕ) : Px := (img.getD y []).getD x (0, 0, 0)

/-- Channel projection of a pixel: 0, 1, 2. -/
def chan (p : Px) (c : ℕ) : ℕ :=
  match c with
  | 0 => p.1
  | 1 => p.2.1
  | _ => p.2.2

/-- Build an h × w single-channel buffer from a pixel function. -/
def mkGrid (h w : ℕ) (f : ℕ → ℕ → ℕ) : Grid :=
  (List.range h).map fun y => (List.range w).map fun x => f y x

/-- Build an h × w image from a pixel function. -/
def mkImage (h w : ℕ) (f : ℕ → ℕ → Px) : Image :=
  (List.range h).map fun y => (List.range w).map fun x => f y x

def gridH (g : Grid) : ℕ := g.length

def gridW (g : Grid) : ℕ := (g.headD []).length

def imgH (img : Image) : ℕ := img.length

def imgW (img : Image) : ℕ := (img.headD []).length

/-- The buffer is a well-formed h × w array (numpy arrays are never ragged). -/
def RectG (g : Grid) (h w : ℕ) : Prop := g.length = h ∧ ∀ row ∈ g, row.length = w

/-- The image is a well-formed h × w × 3 array. -/
def RectI (img : Image) (h w : ℕ) : Prop := img.length = h ∧ ∀ row ∈ img, row.length = w

/-- All three channels are valid uint8 values. -/
def PxU8 (p : Px) : Prop := p.1 ≤ 255 ∧ p.2.1 ≤ 255 ∧ p.2.2 ≤ 255

/-- Every pixel of the image holds uint8 channel values. -/
def ImageU8 (img : Image) : Prop := ∀ row ∈ img, ∀ p ∈ row, PxU8 p

instance (p : Px) : Decidable (PxU8 p) := by unfold PxU8; infer_instance

instance (img : Image) : Decidable (ImageU8 img) := by unfold ImageU8; infer_instance

instance (g : Grid) (h w : ℕ) : Decidable (RectG g h w) := by unfold RectG; infer_instance

instance (img : Image) (h w : ℕ) : Decidable (RectI img h w) := by unfold RectI; infer_instance

theorem getD_of_lists {α : Type} (l : List (List α)) (y x : ℕ) (d : α) (hy : y < l.length) :
    (l.getD y []).getD x d = l[y].getD x d := by
  rw [List.getD_eq_getElem _ _ hy]

theorem gget_mkGrid (h w : ℕ) (f : ℕ → ℕ → ℕ) (y x : ℕ) (hy : y < h) (hx : x < w) :
    gget (mkGrid h w f) y x = f y x := by
  unfold gget mkGrid
  have hy' : y < ((List.range h).map fun y => (List.range w).map fun x => f y x).length := by
    simpa using hy
  rw [getD_of_lists _ _ _ _ hy']
  simp only [List.getElem_map, List.getElem_range]
  rw [List.getD_eq_getElem _ _ (by simpa using hx)]
  simp

theorem pget_mkImage (h w : ℕ) (f : ℕ → ℕ → Px) (y x : ℕ) (hy : y < h) (hx : x < w) :
    pget (mkImage h w f) y x = f y x := by
  unfold pget mkImage
  have hy' : y < ((List.range h).map fun y => (List.range w).map fun x => f y x).length := by
    simpa using hy
  rw [getD_of_lists _ _ _ _ hy']
  simp only [List.getElem_map, List.getElem_range]
  rw [List.getD_eq_getElem _ _ (by simpa using hx)]
  simp

theorem gget_default_of_row_oob (g : Grid) (h w y x : ℕ) (hg : RectG g h w)
    (hy : h ≤ y) : gget g y x = 0 := by
  obtain ⟨hlen, _⟩ := hg
  unfold gget
  rw [List.getD_eq_default _ _ (by omega : g.length ≤ y)]
  simp

theorem gget_default_of_col_oob (g : Grid) (h w y x : ℕ) (hg : RectG g h w)
    (hx : w ≤ x) : gget g y x = 0 := by
  obtain ⟨hlen, hrows⟩ := hg
  rcases lt_or_ge y h with hy | hy
  · have hmem : g.getD y [] ∈ g := by
      rw [List.getD_eq_getElem _ _ (by omega : y < g.length)]
      exact List.getElem_mem _
    have hl : (g.getD y []).length = w := hrows _ hmem
    unfold gget
    rw [List.getD_eq_default _ _ (by omega : (g.getD y []).length ≤ x)]
  · unfold gget
    rw [List.getD_eq_default _ _ (by omega : g.length ≤ y)]
    simp

theorem pget_default_of_row_oob (img : Image) (h w y x : ℕ) (hg : RectI img h w)
    (hy : h ≤ y) : pget img y x = (0, 0, 0) := by
  obtain ⟨hlen, _⟩ := hg
  unfold pget
  rw [List.getD_eq_default _ _ (by omega : img.length ≤ y)]
  simp

theorem pget_default_of_col_oob (img : Image) (h w y x : ℕ) (hg : RectI img h w)
    (hx : w ≤ x) : pget img y x = (0, 0, 0) := by
  obtain ⟨hlen, hrows⟩ := hg
  rcases lt_or_ge y h with hy | hy
  · have hmem : img.getD y [] ∈ img := by
      rw [List.getD_eq_getElem _ _ (by omega : y < img.length)]
      exact List.getElem_mem _
    have hl : (img.getD y []).length = w := hrows _ hmem
    unfold pget
    rw [List.getD_eq_default _ _ (by omega : (img.getD y []).length ≤ x)]
  · unfold pget
    rw [List.getD_eq_default _ _ (by omega : img.length ≤ y)]
    simp

theorem pget_mem (img : Image) (h w y x : ℕ) (hg : RectI img h w)
    (hy : y < h) (hx : x < w) : ∃ row ∈ img, pget img y x ∈ row := by
  obtain ⟨hlen, hrows⟩ := hg
  have hrow : img.getD y [] ∈ img := by
    rw [List.getD_eq_getElem _ _ (by omega : y < img.length)]
    exact List.getElem_mem _
  refine ⟨img.getD y [], hrow, ?_⟩
  have hl : (img.getD y []).length = w := hrows _ hrow
  unfold pget
  rw [List.getD_eq_getElem _ _ (by omega : x < (img.getD y []).length)]
  exact List.getElem_mem _

theorem pget_u8 (img : Image) (h w y x : ℕ) (hg : RectI img h w) (hu : ImageU8 img) :
    PxU8 (pget img y x) := by
  rcases lt_or_ge y h with hy | hy
  · rcases lt_or_ge x w with hx | hx
    · obtain ⟨row, hrow, hp⟩ := pget_mem img h w y x hg hy hx
      exact hu row hrow _ hp
    · rw [pget_default_of_col_oob img h w y x hg hx]; exact (by decide : PxU8 (0, 0, 0))
  · rw [pget_default_of_row_oob img h w y x hg hy]; exact (by decide : PxU8 (0, 0, 0))

/-! ## IEEE-754 floating-point arithmetic
compositor.py blends in numpy float32 (`astype(np.float32)` operands, float32
ufuncs), and `_box_blur` stores an intermediate float64 division back into a
float32 array.  Floating-point values are carried exactly as dyadic rationals
`man * 2 ^ exp`; each operation rounds its exact result to `p` significand bits
(p = 24 for float32, p = 53 for float64) with round-to-nearest, ties-to-even —
IEEE-754 semantics for these pipelines, whose values stay far inside the normal
exponent range (uint8 inputs produce no overflow and no subnormals). -/

/-- Bit length of a natural number (`⌊log2 n⌋ + 1` for positive n), by
structural recursion on a fuel argument; exact below `2 ^ 200`, far above every
value arising in these pipelines. -/
def fbitsAux : ℕ → ℕ → ℕ
  | 0, _ => 0
  | fuel + 1, n => if n = 0 then 0 else fbitsAux fuel (n / 2) + 1

def fbits (n : ℕ) : ℕ := fbitsAux 200 n

/-- A floating-point value carried exactly: `man * 2 ^ exp`. -/
structure Fl where
  man : ℤ
  exp : ℤ
deriving DecidableEq

/-- Round `n * 2 ^ e` to `p` significand bits: round to nearest, ties to even
(the IEEE-754 default).  A mantissa already below `2 ^ p` is kept as is. -/
def flRound (p : ℕ) (n : ℤ) (e : ℤ) : Fl :=
  let a := n.natAbs
  if a < 2 ^ p then ⟨n, e⟩
  else
    let d := fbits a - p
    let q := a / 2 ^ d
    let r := a % 2 ^ d
    let q2 := if 2 * r < 2 ^ d then q
      else if 2 ^ d < 2 * r then q + 1
      else if q % 2 = 0 then q else q + 1
    ⟨if n < 0 then -(q2 : ℤ) else (q2 : ℤ), e + d⟩

/-- Floating addition: the exact sum (mantissas aligned to the smaller
exponent), then a single rounding. -/
def flAdd (p : ℕ) (x y : Fl) : Fl :=
  flRound p (x.man * 2 ^ (x.exp - min x.exp y.exp).toNat +
    y.man * 2 ^ (y.exp - min x.exp y.exp).toNat) (min x.exp y.exp)

def flSub (p : ℕ) (x y : Fl) : Fl := flAdd p x ⟨-y.man, y.exp⟩

def flMul (p : ℕ) (x y : Fl) : Fl := flRound p (x.man * y.man) (x.exp + y.exp)

/-- Floating division: correctly rounded quotient (nearest, ties to even).  The
numerator is scaled so the integer quotient carries more than `p` significant
bits; the remainder decides the rounding, so no double rounding occurs. -/
def flDiv (p : ℕ) (x y : Fl) : Fl :=
  if y.man = 0 then ⟨0, 0⟩
  else
    let s := fbits y.man.natAbs + p + 1
    let a := x.man.natAbs * 2 ^ s
    let b := y.man.natAbs
    let d := fbits (a / b) - p
    let den := b * 2 ^ d
    let q := a / den
    let r := a % den
    let q2 := if 2 * r < den then q
      else if den < 2 * r then q + 1
      else if q % 2 = 0 then q else q + 1
    let sgn : ℤ := if (x.man < 0) = (y.man < 0) then 1 else -1
    ⟨sgn * q2, x.exp - y.exp - s + d⟩

def fone : Fl := ⟨1, 0⟩

/-- Exact comparison of two floating values (comparisons do not round). -/
def flLt (x y : Fl) : Bool :=
  decide (x.man * 2 ^ (x.exp - min x.exp y.exp).toNat <
    y.man * 2 ^ (y.exp - min x.exp y.exp).toNat)

/-- `np.clip(v, 0.0, 1.0)`: in-range values pass through unrounded. -/
def fclip01 (x : Fl) : Fl :=
  if x.man < 0 then ⟨0, 0⟩ else if flLt fone x then fone else x

/-- `np.clip(out, 0, 255).astype(np.uint8)`: the cast truncates toward zero,
which on the clipped nonnegative value is the floor. -/
def flToU8 (x : Fl) : ℕ :=
  if x.man < 0 then 0
  else min (if 0 ≤ x.exp then x.man.toNat * 2 ^ x.exp.toNat
    else x.man.toNat / 2 ^ (-x.exp).toNat) 255

/-! ## Compositor
Embedding of src/picture-ai/back/app/service/composition/compositor.py. -/

/-- Clip a rational to an interval, as np.clip (for the layer-editor model). -/
def clipQ (q lo hi : ℚ) : ℚ := min (max q lo) hi

/-- `np.clip(out, 0, 255).astype(np.uint8)` on an exact rational (used by the
layer-editor embedding): after the clip the value is in [0,255], where
truncation toward zero is the floor. -/
def u8OfQ (q : ℚ) : ℕ := (Int.toNat ⌊clipQ q 0 255⌋)

/-- Mask normalisation of compositor.py: `m = mask.astype(np.float32) / 255.0`
followed by `np.clip(m, 0, 1)`.  The uint8 value is exact in float32; the
division by 255.0 is one float32 rounding. -/
def maskAlphaF (mask : Grid) (y x : ℕ) : Fl :=
  fclip01 (flDiv 24 ⟨(gget mask y x : ℤ), 0⟩ ⟨255, 0⟩)

/-- Axis-0 cumulative sum of the zero-padded mask in `_box_blur`
(`np.pad(mask_f, ((1,0),(1,0))).cumsum(axis=0)`): numpy accumulates
sequentially, one float32 rounding per addition. -/
def cumsum0 (m : ℕ → ℕ → Fl) : ℕ → ℕ → Fl
  | 0, _ => ⟨0, 0⟩
  | y + 1, x => flAdd 24 (cumsum0 m y x) (if x = 0 then ⟨0, 0⟩ else m y (x - 1))

/-- Axis-1 cumulative sum on top of `cumsum0`: `cumsum1 m y x` is the integral
image `ii[y, x]` of `_box_blur`. -/
def cumsum1 (m : ℕ → ℕ → Fl) : ℕ → ℕ → Fl
  | y, 0 => cumsum0 m y 0
  | y, x + 1 => flAdd 24 (cumsum1 m y x) (cumsum0 m y (x + 1))

/-- One output value of `_box_blur`: the window sum via integral-image
differences (float32, numpy's left-to-right order `ii₁ - ii₂ - ii₃ + ii₄`),
divided by the exact window area.  numpy promotes the float32 sum and the
python-float area to a float64 division, whose result is rounded to float32 on
store into `out`.  ℕ subtraction `y - r` is `max(0, y - r)`. -/
def boxBlurAtF (h w : ℕ) (m : ℕ → ℕ → Fl) (r : ℕ) (y x : ℕ) : Fl :=
  let y0 := y - r
  let y1 := min (h - 1) (y + r)
  let x0 := x - r
  let x1 := min (w - 1) (x + r)
  let s := flAdd 24 (flSub 24 (flSub 24 (cumsum1 m (y1 + 1) (x1 + 1))
    (cumsum1 m y0 (x1 + 1))) (cumsum1 m (y1 + 1) x0)) (cumsum1 m y0 x0)
  let d := flDiv 53 s ⟨(((y1 - y0 + 1) * (x1 - x0 + 1) : ℕ) : ℤ), 0⟩
  flRound 24 d.man d.exp

/-- The alpha actually used by `composite` at a pixel: feathered (with a second
clip to [0,1]) when `feather_radius > 0`, the raw normalised mask otherwise. -/
def featherAlphaF (h w : ℕ) (mask : Grid) (r : ℕ) (y x : ℕ) : Fl :=
  if 0 < r then fclip01 (boxBlurAtF h w (fun a b => maskAlphaF mask a b) r y x)
  else maskAlphaF mask y x

/-- One channel of `out = (1.0 - m3) * base + m3 * edited` followed by the
clipped uint8 cast: subtraction, two products and the sum are each one float32
rounding (the uint8 channel values are exact in float32). -/
def blendChanF (a : Fl) (vb ve : ℕ) : ℕ :=
  flToU8 (flAdd 24 (flMul 24 (flSub 24 fone a) ⟨(vb : ℤ), 0⟩)
    (flMul 24 a ⟨(ve : ℤ), 0⟩))

/-- `composite(base_bgr, edited_bgr, mask, feather_radius)` of compositor.py.
`feather_radius : ℕ` (the claims under verification only concern r ≥ 0). -/
def composite (base edited : Image) (mask : Grid) (r : ℕ) : Except String Image :=
  if (imgH base, imgW base) ≠ (imgH edited, imgW edited) then
    Except.error ("base and edited shape mismatch")
  else if (gridH mask, gridW mask) ≠ (imgH base, imgW base) then
    Except.error ("mask shape mismatch")
  else
    let h := imgH base
    let w := imgW base
    Except.ok (mkImage h w fun y x =>
      let a := featherAlphaF h w mask r y x
      (blendChanF a (chan (pget base y x) 0) (chan (pget edited y x) 0),
       blendChanF a (chan (pget base y x) 1) (chan (pget edited y x) 1),
       blendChanF a (chan (pget base y x) 2) (chan (pget edited y x) 2)))

theorem headD_length {α : Type} (l : List (List α)) (h w : ℕ) (hlen : l.length = h)
    (hrows : ∀ row ∈ l, row.length = w) (hh : 0 < h) : (l.headD []).length = w := by
  cases l with
  | nil => simp at hlen; omega
  | cons a t => exact hrows a (List.mem_cons_self a t)

theorem gget_mem (g : Grid) (h w y x : ℕ) (hg : RectG g h w)
    (hy : y < h) (hx : x < w) : ∃ row ∈ g, gget g y x ∈ row := by
  obtain ⟨hlen, hrows⟩ := hg
  have hrow : g.getD y [] ∈ g := by
    rw [List.getD_eq_getElem _ _ (by omega : y < g.length)]
    exact List.getElem_mem _
  refine ⟨g.getD y [], hrow, ?_⟩
  have hl : (g.getD y []).length = w := hrows _ hrow
  unfold gget
  rw [List.getD_eq_getElem _ _ (by omega : x < (g.getD y []).length)]
  exact List.getElem_mem _

theorem rectI_mkImage (h w : ℕ) (f : ℕ → ℕ → Px) : RectI (mkImage h w f) h w := by
  constructor
  · simp [mkImage]
  · intro row hrow
    simp only [mkImage, List.mem_map] at hrow
    obtain ⟨y, _, rfl⟩ := hrow
    simp

theorem rectG_mkGrid (h w : ℕ) (f : ℕ → ℕ → ℕ) : RectG (mkGrid h w f) h w := by
  constructor
  · simp [mkGrid]
  · intro row hrow
    simp only [mkGrid, List.mem_map] at hrow
    obtain ⟨y, _, rfl⟩ := hrow
    simp

/-- The float32 mask alpha of the value 0 is exactly 0 (with the exponent the
division algorithm produces). -/
theorem maskAlphaF_zero : fclip01 (flDiv 24 ⟨((0 : ℕ) : ℤ), 0⟩ ⟨255, 0⟩) = ⟨0, -33⟩ := by
  decide

/-- The float32 mask alpha of the value 255 is exactly 1 (`255.0 / 255.0`
rounds to the significand `2^23` at exponent -23). -/
theorem maskAlphaF_full :
    fclip01 (flDiv 24 ⟨((255 : ℕ) : ℤ), 0⟩ ⟨255, 0⟩) = ⟨8388608, -23⟩ := by
  decide

/-- `1.0 - 0.0` is exact in float32. -/
theorem one_sub_alpha_zero : flSub 24 fone ⟨0, -33⟩ = ⟨8388608, -23⟩ := by decide

/-- `1.0 - 1.0` is exact in float32. -/
theorem one_sub_alpha_full : flSub 24 fone ⟨8388608, -23⟩ = ⟨0, -23⟩ := by decide

/-- A product with a zero mantissa is exact (no rounding occurs). -/
theorem flMul_zero_man (p : ℕ) (e : ℤ) (y : Fl) :
    flMul p ⟨0, e⟩ y = ⟨0, e + y.exp⟩ := by
  unfold flMul flRound
  simp [Nat.pos_pow_of_pos]

set_option maxRecDepth 1000000 in
/-- Multiplying a uint8 channel value by the float32 constant 1.0
(significand `2^23`), adding a zero term of exponent -33 and casting back is
the identity: the product's dropped low bits are all zero. -/
theorem blend_one_zero : ∀ v : ℕ, v < 256 →
    flToU8 (flAdd 24 (flMul 24 ⟨8388608, -23⟩ ⟨(v : ℤ), 0⟩) ⟨0, -33⟩) = v := by
  decide

set_option maxRecDepth 1000000 in
/-- Symmetric form: zero first summand (exponent -23), then 1.0 times the
channel value. -/
theorem blend_zero_one : ∀ v : ℕ, v < 256 →
    flToU8 (flAdd 24 ⟨0, -23⟩ (flMul 24 ⟨8388608, -23⟩ ⟨(v : ℤ), 0⟩)) = v := by
  decide

/-- Blending a channel with the exact float32 alpha 0 returns the base value:
every float32 step is exact. -/
theorem blendChanF_alpha_zero (vb ve : ℕ) (hb : vb ≤ 255) :
    blendChanF ⟨0, -33⟩ vb ve = vb := by
  unfold blendChanF
  rw [one_sub_alpha_zero, flMul_zero_man]
  show flToU8 (flAdd 24 (flMul 24 ⟨8388608, -23⟩ ⟨(vb : ℤ), 0⟩) ⟨0, -33 + 0⟩) = vb
  norm_num
  exact blend_one_zero vb (by omega)

/-- Blending a channel with the exact float32 alpha 1 returns the edited
value: every float32 step is exact. -/
theorem blendChanF_alpha_full (vb ve : ℕ) (he : ve ≤ 255) :
    blendChanF ⟨8388608, -23⟩ vb ve = ve := by
  unfold blendChanF
  rw [one_sub_alpha_full, flMul_zero_man]
  show flToU8 (flAdd 24 ⟨0, -23 + 0⟩ (flMul 24 ⟨8388608, -23⟩ ⟨(ve : ℤ), 0⟩)) = ve
  norm_num
  exact blend_zero_one ve (by omega)

/-- Unfolding of `composite` when both shape validations pass. -/
theorem composite_eq_of_checks (base edited : Image) (mask : Grid) (r : ℕ)
    (h1 : (imgH base, imgW base) = (imgH edited, imgW edited))
    (h2 : (gridH mask, gridW mask) = (imgH base, imgW base)) :
    composite base edited mask r =
      Except.ok (mkImage (imgH base) (imgW base) fun y x =>
        let a := featherAlphaF (imgH base) (imgW base) mask r y x
        (blendChanF a (chan (pget base y x) 0) (chan (pget edited y x) 0),
         blendChanF a (chan (pget base y x) 1) (chan (pget edited y x) 1),
         blendChanF a (chan (pget base y x) 2) (chan (pget edited y x) 2))) := by
  unfold composite
  rw [if_neg (by simp [h1]), if_neg (by simp [h2])]

theorem mask_dims_match (I : Image) (M : Grid) (h w : ℕ)
    (hI : RectI I h w) (hM : RectG M h w) :
    (gridH M, gridW M) = (imgH I, imgW I) := by
  rcases Nat.eq_zero_or_pos h with hh | hh
  · subst hh
    have hI0 : I = [] := List.length_eq_zero.mp hI.1
    have hM0 : M = [] := List.length_eq_zero.mp hM.1
    subst hI0; subst hM0; rfl
  · have e1 : gridH M = h := hM.1
    have e2 : imgH I = h := hI.1
    have e3 : gridW M = w := headD_length M h w hM.1 hM.2 hh
    have e4 : imgW I = w := headD_length I h w hI.1 hI.2 hh
    simp [e1, e2, e3, e4]

theorem img_dims_match (I J : Image) (h w : ℕ) (hI : RectI I h w) (hJ : RectI J h w) :
    (imgH I, imgW I) = (imgH J, imgW J) := by
  rcases Nat.eq_zero_or_pos h with hh | hh
  · subst hh
    have hI0 : I = [] := List.length_eq_zero.mp hI.1
    have hJ0 : J = [] := List.length_eq_zero.mp hJ.1
    subst hI0; subst hJ0; rfl
  · have e1 : imgH I = h := hI.1
    have e2 : imgH J = h := hJ.1
    have e3 : imgW I = w := headD_length I h w hI.1 hI.2 hh
    have e4 : imgW J = w := headD_length J h w hJ.1 hJ.2 hh
    simp [e1, e2, e3, e4]

theorem chan_fst (p : Px) : chan p 0 = p.1 := rfl

theorem chan_snd (p : Px) : chan p 1 = p.2.1 := rfl

theorem chan_thd (p : Px) : chan p 2 = p.2.2 := rfl

/-! ## Hard-edge compositing (claim C3) -/

/-- Written from the spec sentence for C3: the per-pixel substitution image that
takes the pixel of `edited` wherever the mask is positive and `base` elsewhere. -/
def hardSubst (base edited : Image) (mask : Grid) (h w : ℕ) : Image :=
  mkImage h w fun y x => if 0 < gget mask y x then pget edited y x else pget base y x

/-- Mask values are 0/255 only (the spec's binary-valued mask contract). -/
def BinaryGrid (g : Grid) : Prop := ∀ row ∈ g, ∀ v ∈ row, v = 0 ∨ v = 255

instance (g : Grid) : Decidable (BinaryGrid g) := by unfold BinaryGrid; infer_instance

def cBase3 : Image := [[(0, 0, 0)]]

def cEdited3 : Image := [[(255, 255, 255)]]

def cMaskHalf : Grid := [[128]]

/-- Counterexample to claim C3 as stated: with the non-binary mask value 128 and
feather radius 0, `composite` blends (yielding 128) instead of substituting the
edited pixel (255); so `composite(base, edited, M, 0)` is not the per-pixel
substitution image for arbitrary masks. -/
theorem C3_counterexample :
    pget ((composite cBase3 cEdited3 cMaskHalf 0).toOption.getD []) 0 0 ≠
      pget (hardSubst cBase3 cEdited3 cMaskHalf 1 1) 0 0 := by
  decide

/-- Claim C3 (amended): for masks that are binary-valued (each value 0 or 255,
the spec's mask representation at API boundaries), compositing with feather
radius 0 equals the per-pixel substitution of `edited` where the mask is
positive and `base` elsewhere. -/
theorem C3_hard_edge_binary (base edited : Image) (M : Grid) (h w : ℕ)
    (hb : RectI base h w) (he : RectI edited h w) (hM : RectG M h w)
    (hub : ImageU8 base) (hue : ImageU8 edited) (hbin : BinaryGrid M) :
    ∃ J, composite base edited M 0 = Except.ok J ∧
      ∀ y x, pget J y x = pget (hardSubst base edited M h w) y x := by
  refine ⟨_, composite_eq_of_checks base edited M 0 (img_dims_match base edited h w hb he)
    (mask_dims_match base M h w hb hM), ?_⟩
  intro y x
  unfold hardSubst
  have hH : imgH base = h := hb.1
  by_cases hy : y < h
  · rcases Nat.eq_zero_or_pos h with hh | hh
    · omega
    · have hW : imgW base = w := headD_length base h w hb.1 hb.2 hh
      by_cases hx : x < w
      · rw [pget_mkImage _ _ _ y x (by omega) (by omega)]
        rw [pget_mkImage _ _ _ y x hy hx]
        simp only [chan_fst, chan_snd, chan_thd]
        have hval : gget M y x = 0 ∨ gget M y x = 255 := by
          obtain ⟨row, hrow, hv⟩ := gget_mem M h w y x hM hy hx
          exact hbin row hrow _ hv
        have ha0 : featherAlphaF (imgH base) (imgW base) M 0 y x = maskAlphaF M y x := by
          unfold featherAlphaF; simp
        rcases hval with hv | hv
        · have ha : featherAlphaF (imgH base) (imgW base) M 0 y x = ⟨0, -33⟩ := by
            rw [ha0]; unfold maskAlphaF; rw [hv]; exact maskAlphaF_zero
          rw [ha]
          obtain ⟨b0, b1, b2⟩ := pget_u8 base h w y x hb hub
          rw [if_neg (by omega)]
          rw [blendChanF_alpha_zero _ _ b0, blendChanF_alpha_zero _ _ b1,
            blendChanF_alpha_zero _ _ b2]
        · have ha : featherAlphaF (imgH base) (imgW base) M 0 y x = ⟨8388608, -23⟩ := by
            rw [ha0]; unfold maskAlphaF; rw [hv]; exact maskAlphaF_full
          rw [ha]
          obtain ⟨e0, e1, e2⟩ := pget_u8 edited h w y x he hue
          rw [if_pos (by omega)]
          rw [blendChanF_alpha_full _ _ e0, blendChanF_alpha_full _ _ e1,
            blendChanF_alpha_full _ _ e2]
      · rw [pget_default_of_col_oob _ (imgH base) (imgW base) y x (rectI_mkImage _ _ _)
            (by omega),
          pget_default_of_col_oob _ h w y x (rectI_mkImage h w _) (by omega)]
  · rw [pget_default_of_row_oob _ (imgH base) (imgW base) y x (rectI_mkImage _ _ _) (by omega),
      pget_default_of_row_oob _ h w y x (rectI_mkImage h w _) (by omega)]

def cMaskBin : Grid := [[0, 255]]

def cBase3b : Image := [[(10, 20, 30), (40, 50, 60)]]

def cEdited3b : Image := [[(70, 80, 90), (100, 110, 120)]]

/-- Witness for the amended C3 at a concrete binary mask. -/
theorem C3_hard_edge_binary_witness :
    ∃ J, composite cBase3b cEdited3b cMaskBin 0 = Except.ok J ∧
      ∀ y x, pget J y x = pget (hardSubst cBase3b cEdited3b cMaskBin 1 2) y x :=
  C3_hard_edge_binary cBase3b cEdited3b cMaskBin 1 2 (by decide) (by decide) (by decide)
    (by decide) (by decide) (by decide)

/-! ## Compositing an image with itself (claim C2) -/

def cImg2 : Image := [[(3, 3, 3)]]

def cMask65 : Grid := [[65]]

/-- Counterexample to claim C2 as stated: compositing the image with itself is
not the identity for arbitrary masks.  With mask value 65 and feather radius 0
the float32 alpha is fl(65/255), and fl(1 - fl(65/255)) + fl(65/255) < 1, so
blending the channel value 3 with itself yields 3 - 2⁻²² in float32, which the
truncating uint8 cast lowers to 2. -/
theorem C2_counterexample :
    pget ((composite cImg2 cImg2 cMask65 0).toOption.getD []) 0 0 ≠
      pget cImg2 0 0 := by
  decide

/-- Concrete sample image and binary mask for the C2 witness. -/
def cImg1 : Image := [[(1, 2, 3), (250, 255, 0)]]

def cMask1 : Grid := [[0, 255]]

/-- Claim C2 (amended): compositing an image with itself is the identity at
every pixel for binary masks (each value 0 or 255) at feather radius 0, where
the float32 alpha is exactly 0.0 or 1.0 and every blend step is exact.  (For
general mask values the float32 blend plus the truncating uint8 cast can lower
a channel by one, and feathering produces fractional alphas with the same
defect, per `C2_counterexample`.) -/
theorem C2_composite_idempotent_binary (I : Image) (M : Grid) (h w : ℕ)
    (hI : RectI I h w) (hM : RectG M h w) (hu : ImageU8 I) (hbin : BinaryGrid M) :
    ∃ J, composite I I M 0 = Except.ok J ∧ ∀ y x, pget J y x = pget I y x := by
  refine ⟨_, composite_eq_of_checks I I M 0 rfl (mask_dims_match I M h w hI hM), ?_⟩
  intro y x
  have hH : imgH I = h := hI.1
  by_cases hy : y < h
  · rcases Nat.eq_zero_or_pos h with hh | hh
    · omega
    · have hW : imgW I = w := headD_length I h w hI.1 hI.2 hh
      by_cases hx : x < w
      · rw [pget_mkImage _ _ _ y x (by omega) (by omega)]
        simp only [chan_fst, chan_snd, chan_thd]
        have hval : gget M y x = 0 ∨ gget M y x = 255 := by
          obtain ⟨row, hrow, hv⟩ := gget_mem M h w y x hM hy hx
          exact hbin row hrow _ hv
        have ha0 : featherAlphaF (imgH I) (imgW I) M 0 y x = maskAlphaF M y x := by
          unfold featherAlphaF; simp
        obtain ⟨b0, b1, b2⟩ := pget_u8 I h w y x hI hu
        rcases hval with hv | hv
        · have ha : featherAlphaF (imgH I) (imgW I) M 0 y x = ⟨0, -33⟩ := by
            rw [ha0]; unfold maskAlphaF; rw [hv]; exact maskAlphaF_zero
          rw [ha]
          rw [blendChanF_alpha_zero _ _ b0, blendChanF_alpha_zero _ _ b1,
            blendChanF_alpha_zero _ _ b2]
        · have ha : featherAlphaF (imgH I) (imgW I) M 0 y x = ⟨8388608, -23⟩ := by
            rw [ha0]; unfold maskAlphaF; rw [hv]; exact maskAlphaF_full
          rw [ha]
          rw [blendChanF_alpha_full _ _ b0, blendChanF_alpha_full _ _ b1,
            blendChanF_alpha_full _ _ b2]
      · rw [pget_default_of_col_oob _ h w y x hI (by omega),
          pget_default_of_col_oob _ (imgH I) (imgW I) y x (rectI_mkImage _ _ _) (by omega)]
  · rw [pget_default_of_row_oob _ h w y x hI (by omega),
      pget_default_of_row_oob _ (imgH I) (imgW I) y x (rectI_mkImage _ _ _) (by omega)]

/-- Witness for the amended C2 at a concrete image and binary mask. -/
theorem C2_composite_idempotent_binary_witness :
    ∃ J, composite cImg1 cImg1 cMask1 0 = Except.ok J ∧
      ∀ y x, pget J y x = pget cImg1 y x :=
  C2_composite_idempotent_binary cImg1 cMask1 1 2 (by decide) (by decide) (by decide)
    (by decide)

/-! ## Colour transfer service
Embedding of src/picture-ai/back/app/service/color/color_transfer.py and the
route-level validation of src/picture-ai/back/app/api/color.py.

The cv2.cvtColor 8-bit RGB/HSV conversions are embedded by OpenCV's fixed-point
algorithm (hsv_shift = 12 tables, arithmetic shifts) with the float steps of the
backward conversion carried as exact fractions; roundings are cvRound, i.e.
round half to even. -/

/-- Round half to even of the exact nonneg fraction a / b (cvRound semantics). -/
def rneDiv (a b : ℕ) : ℕ :=
  let q := a / b
  let r := a % b
  if 2 * r < b then q
  else if b < 2 * r then q + 1
  else if q % 2 = 0 then q else q + 1

/-- OpenCV sdiv_table: saturate_cast of (255 shifted by 12) / i. -/
def sdivTab (i : ℕ) : ℕ := if i = 0 then 0 else rneDiv (255 * 4096) i

/-- OpenCV hdiv_table180: saturate_cast of (180 shifted by 12) / (6 i). -/
def hdivTab (i : ℕ) : ℕ := if i = 0 then 0 else rneDiv (180 * 4096) (6 * i)

/-- cv2.cvtColor COLOR_RGB2HSV on a uint8 pixel (hue range 180). -/
def rgb2hsv (p : Px) : Px :=
  let r := p.1
  let g := p.2.1
  let b := p.2.2
  let v := max r (max g b)
  let vmin := min r (min g b)
  let diff := v - vmin
  let s := (diff * sdivTab v + 2048) / 4096
  let h0 : ℤ :=
    if v = r then (g : ℤ) - (b : ℤ)
    else if v = g then (b : ℤ) - (r : ℤ) + 2 * (diff : ℤ)
    else (r : ℤ) - (g : ℤ) + 4 * (diff : ℤ)
  let h1 : ℤ := Int.fdiv (h0 * (hdivTab diff : ℤ) + 2048) 4096
  let h2 : ℤ := if h1 < 0 then h1 + 180 else h1
  (h2.toNat, s, v)

/-- cv2.cvtColor COLOR_HSV2RGB on a uint8 pixel.  OpenCV scales h by 6/180 and
s, v by 1/255, picks the sector via cvFloor, builds tab0..tab3 and reads the
channel order from sector_data, then rounds each channel times 255 back to
uint8.  Here the fractions are exact: the sector fraction p is pn/180 and each
tab value times 255 is an integer-numerator fraction over 45900 = 255 * 180. -/
def hsv2rgb (p : Px) : Px :=
  let h := p.1
  let s := p.2.1
  let v := p.2.2
  if s = 0 then (v, v, v)
  else
    let sector := h * 6 / 180
    let pn := h * 6 - 180 * sector
    let t0 := v
    let t1 := rneDiv (v * (255 - s)) 255
    let t2 := rneDiv (v * (45900 - s * pn)) 45900
    let t3 := rneDiv (v * (45900 - s * (180 - pn))) 45900
    let pick := fun k => if k = 0 then t0 else if k = 1 then t1 else if k = 2 then t2 else t3
    let sd : ℕ × ℕ × ℕ :=
      if sector = 0 then (1, 3, 0)
      else if sector = 1 then (1, 0, 2)
      else if sector = 2 then (3, 0, 1)
      else if sector = 3 then (0, 2, 1)
      else if sector = 4 then (0, 1, 3)
      else (2, 1, 0)
    (pick sd.2.2, pick sd.2.1, pick sd.1)

/-- Squared RGB distance of a pixel to a colour, the int32 `(diff ** 2).sum()`;
the source compares its sqrt against the tolerance, which is order-equivalent
to comparing this square against tolerance². -/
def colorDist2 (p c : Px) : ℤ :=
  ((p.1 : ℤ) - (c.1 : ℤ)) ^ 2 + ((p.2.1 : ℤ) - (c.2.1 : ℤ)) ^ 2 +
    ((p.2.2 : ℤ) - (c.2.2 : ℤ)) ^ 2

/-- `mask.any()` of one mapping iteration. -/
def anyMatch (img : Image) (src : Px) (tol : ℕ) : Bool :=
  img.any fun row => row.any fun p => decide (colorDist2 p src ≤ ((tol : ℤ)) ^ 2)

/-- One iteration of the `for src, tgt in zip(...)` loop of apply_color_mapping.
With preserve_luminance the whole current image is converted RGB→HSV (uint8),
matched pixels get the target's hue and saturation with value kept, and the
whole image is converted back HSV→RGB (uint8); otherwise matched pixels are
replaced outright. -/
def mappingStep (pres : Bool) (tol : ℕ) (result : Image) (st : Px × Px) : Image :=
  let src := st.1
  let tgt := st.2
  if ¬ anyMatch result src tol then result
  else if pres then
    let tgtHsv := rgb2hsv tgt
    mkImage (imgH result) (imgW result) fun y x =>
      let p := pget result y x
      let hsv := rgb2hsv p
      hsv2rgb (if colorDist2 p src ≤ ((tol : ℤ)) ^ 2
        then (tgtHsv.1, tgtHsv.2.1, hsv.2.2) else hsv)
  else
    mkImage (imgH result) (imgW result) fun y x =>
      let p := pget result y x
      if colorDist2 p src ≤ ((tol : ℤ)) ^ 2 then tgt else p

/-- ColorTransferService.apply_color_mapping: fold the mapping steps over the
zipped source/target colour lists (python's zip truncates to the shorter). -/
def applyColorMapping (img : Image) (sources targets : List Px) (tol : ℕ) (pres : Bool) :
    Image :=
  (sources.zip targets).foldl (mappingStep pres tol) img

theorem colorDist2_nonpos_iff (p c : Px) : colorDist2 p c ≤ 0 ↔ p = c := by
  unfold colorDist2
  constructor
  · intro hle
    have h1 : ((p.1 : ℤ) - (c.1 : ℤ)) ^ 2 = 0 := by
      nlinarith [sq_nonneg ((p.1 : ℤ) - (c.1 : ℤ)), sq_nonneg ((p.2.1 : ℤ) - (c.2.1 : ℤ)),
        sq_nonneg ((p.2.2 : ℤ) - (c.2.2 : ℤ))]
    have h2 : ((p.2.1 : ℤ) - (c.2.1 : ℤ)) ^ 2 = 0 := by
      nlinarith [sq_nonneg ((p.1 : ℤ) - (c.1 : ℤ)), sq_nonneg ((p.2.1 : ℤ) - (c.2.1 : ℤ)),
        sq_nonneg ((p.2.2 : ℤ) - (c.2.2 : ℤ))]
    have h3 : ((p.2.2 : ℤ) - (c.2.2 : ℤ)) ^ 2 = 0 := by
      nlinarith [sq_nonneg ((p.1 : ℤ) - (c.1 : ℤ)), sq_nonneg ((p.2.1 : ℤ) - (c.2.1 : ℤ)),
        sq_nonneg ((p.2.2 : ℤ) - (c.2.2 : ℤ))]
    have e1 : p.1 = c.1 := by
      have := pow_eq_zero_iff (n := 2) (by omega) |>.mp h1
      omega
    have e2 : p.2.1 = c.2.1 := by
      have := pow_eq_zero_iff (n := 2) (by omega) |>.mp h2
      omega
    have e3 : p.2.2 = c.2.2 := by
      have := pow_eq_zero_iff (n := 2) (by omega) |>.mp h3
      omega
    exact Prod.ext e1 (Prod.ext e2 e3)
  · intro he
    subst he
    simp

/-- Single mapping step with tolerance 0 and preserve_luminance disabled keeps
a pixel whose current value differs from the iteration's source colour. -/
theorem mappingStep_keeps_nonmatching (st : Px × Px) (img : Image) (h w y x : ℕ)
    (hr : RectI img h w) (hy : y < h) (hx : x < w)
    (hne : pget img y x ≠ st.1) :
    pget (mappingStep false 0 img st) y x = pget img y x ∧
      RectI (mappingStep false 0 img st) h w := by
  have hH : imgH img = h := hr.1
  have hW : imgW img = w := headD_length img h w hr.1 hr.2 (by omega)
  unfold mappingStep
  by_cases hany : anyMatch img st.1 0
  · rw [if_neg (by simpa using hany), if_neg (show ¬ (false = true) by decide)]
    constructor
    · rw [pget_mkImage _ _ _ y x (by omega) (by omega)]
      simp only
      rw [if_neg]
      intro hle
      exact hne ((colorDist2_nonpos_iff _ _).mp (by simpa using hle))
    · rw [← hH, ← hW]
      exact rectI_mkImage _ _ _
  · rw [if_pos (by simpa using hany)]
    exact ⟨rfl, hr⟩

/-- Fold form of the tolerance-0, preserve_luminance = False loop. -/
theorem applyCM_fold_keeps (lst : List (Px × Px)) (img : Image) (h w y x : ℕ)
    (hr : RectI img h w) (hy : y < h) (hx : x < w)
    (hno : ∀ st ∈ lst, pget img y x ≠ st.1) :
    pget (lst.foldl (mappingStep false 0) img) y x = pget img y x := by
  induction lst generalizing img with
  | nil => rfl
  | cons st rest ih =>
    obtain ⟨hkeep, hrect⟩ := mappingStep_keeps_nonmatching st img h w y x hr hy hx
      (hno st (List.mem_cons_self st rest))
    have hrest : ∀ st2 ∈ rest, pget (mappingStep false 0 img st) y x ≠ st2.1 := by
      intro st2 hst2
      rw [hkeep]
      exact hno st2 (List.mem_cons_of_mem _ hst2)
    calc pget ((st :: rest).foldl (mappingStep false 0) img) y x
        = pget (rest.foldl (mappingStep false 0) (mappingStep false 0 img st)) y x := rfl
      _ = pget (mappingStep false 0 img st) y x := ih _ hrect hrest
      _ = pget img y x := hkeep

/-- Claim C4 (amended): with tolerance 0 and preserve_luminance = False, every
pixel whose colour differs from all source colours is unchanged by
apply_color_mapping; only exact matches are modified.  (With
preserve_luminance = True the claim fails, see the counterexample.) -/
theorem C4_tolzero_exact_no_preserve (img : Image) (sources targets : List Px)
    (h w y x : ℕ) (hr : RectI img h w) (hy : y < h) (hx : x < w)
    (hno : ∀ s ∈ sources, pget img y x ≠ s) :
    pget (applyColorMapping img sources targets 0 false) y x = pget img y x := by
  unfold applyColorMapping
  refine applyCM_fold_keeps _ img h w y x hr hy hx ?_
  intro st hst
  exact hno st.1 (List.of_mem_zip hst).1

def cImg4 : Image := [[(0, 0, 0), (255, 100, 0)]]

/-- Witness for the amended C4 on a concrete image. -/
theorem C4_tolzero_exact_no_preserve_witness :
    pget (applyColorMapping cImg4 [(9, 9, 9)] [(1, 2, 3)] 0 false) 0 1 = pget cImg4 0 1 :=
  C4_tolzero_exact_no_preserve cImg4 [(9, 9, 9)] [(1, 2, 3)] 1 2 0 1 (by decide) (by decide)
    (by decide) (by decide)

/-- Counterexample to claim C4 as stated: with preserve_luminance = True and
tolerance 0, the pixel (255,100,0) — which matches no source colour — is still
altered (to (255,102,0)) because the whole image is round-tripped through the
lossy 8-bit HSV representation once any pixel matches a source colour. -/
theorem C4_counterexample :
    pget (applyColorMapping cImg4 [(0, 0, 0)] [(0, 0, 255)] 0 true) 0 1 ≠ pget cImg4 0 1 := by
  decide

/-! ## Endpoint validation for apply_color_mapping (app/api/color.py) -/

/-- Route POST /color/apply-mapping: rejects requests whose source and target
colour lists differ in length (HTTP 422) before calling the service. -/
def applyColorMappingRoute (img : Image) (sources targets : List Px) (tol : ℕ)
    (pres : Bool) : Except String Image :=
  if sources.length ≠ targets.length then
    Except.error ("source and target color counts must match")
  else
    Except.ok (applyColorMapping img sources targets tol pres)

/-- Claim C5: the apply_color_mapping boundary operation fails (returns an
error, not an image) whenever the source and target lists have different
lengths.  The length check lives in the API route wrapping the service. -/
theorem C5_length_mismatch_fails (img : Image) (sources targets : List Px) (tol : ℕ)
    (pres : Bool) (hne : sources.length ≠ targets.length) :
    applyColorMappingRoute img sources targets tol pres =
      Except.error ("source and target color counts must match") := by
  unfold applyColorMappingRoute
  rw [if_pos hne]

/-- Witness for C5 with lists of lengths 2 and 1. -/
theorem C5_length_mismatch_fails_witness :
    applyColorMappingRoute cImg4 [(0, 0, 0), (1, 1, 1)] [(2, 2, 2)] 40 true =
      Except.error ("source and target color counts must match") :=
  C5_length_mismatch_fails cImg4 [(0, 0, 0), (1, 1, 1)] [(2, 2, 2)] 40 true (by decide)

/-! ## Palette extraction (ColorTransferService.extract_palette)
The K-means fit itself is sklearn, external to the repository; it is a
parameter of the embedding (`kmRun`), returning per-pixel cluster labels and
the cluster centres (already cast to uint8 triples as the source does). -/

structure KMeansOut where
  labels : List ℕ
  centers : List Px

/-- One palette entry: centre colour, its hex string, share of sampled pixels
(python round(ratio, 4) is round half to even, kept exact in ℚ). -/
structure ColorInfo where
  rgb : Px
  hex : String
  ratioQ : ℚ

def hexDigitChar (n : ℕ) : Char :=
  if n < 10 then Char.ofNat (48 + n) else Char.ofNat (87 + n)

def hex2 (n : ℕ) : String := String.mk [hexDigitChar (n / 16), hexDigitChar (n % 16)]

def hexOfRgb (p : Px) : String := "#" ++ hex2 p.1 ++ hex2 p.2.1 ++ hex2 p.2.2

/-- Round half to even (python round) at 4 decimals. -/
def round4 (q : ℚ) : ℚ :=
  let t := q * 10000
  let f := ⌊t⌋
  let frac := t - f
  (if frac < 1 / 2 then f else if 1 / 2 < frac then f + 1
    else if f % 2 = 0 then f else f + 1 : ℤ) / 10000

/-- Pixel selection of extract_palette: all pixels flattened, or — when a mask
is given — the pixels whose flattened mask value exceeds 128 (numpy boolean
indexing over same-length flattened buffers, modelled by zip). -/
def selectedPixels (img : Image) (mask : Option Grid) : List Px :=
  match mask with
  | none => img.flatten
  | some m => (img.flatten.zip m.flatten).filterMap fun pm =>
      if 128 < pm.2 then some pm.1 else none

/-- ColorTransferService.extract_palette.  np.unique returns ascending distinct
labels with their counts; entries are ordered by descending count (stable order
on ties) and carry the centre colour, hex code and rounded pixel share. -/
def extractPalette (kmRun : List Px → ℕ → KMeansOut) (img : Image) (nColors : ℕ)
    (mask : Option Grid) : List ColorInfo :=
  let pixels := selectedPixels img mask
  if pixels.length = 0 then []
  else
    let km := kmRun pixels (min nColors pixels.length)
    let uniq := (km.labels.mergeSort (fun a b => a ≤ b)).dedup
    let pairs := uniq.map fun l => (l, km.labels.count l)
    let orderd := pairs.insertionSort fun a b => b.2 ≤ a.2
    orderd.map fun lc =>
      let c := km.centers.getD lc.1 (0, 0, 0)
      { rgb := c, hex := hexOfRgb c, ratioQ := round4 ((lc.2 : ℚ) / (pixels.length : ℚ)) }

/-- Claim C10: extract_palette returns the empty list (rather than raising) for
any image, colour count and K-means implementation when the mask selects zero
pixels, and likewise on an image with zero pixels for any mask argument. -/
theorem C10_extract_palette_empty (kmRun : List Px → ℕ → KMeansOut) (img : Image)
    (nColors : ℕ) :
    (∀ m : Grid, (∀ v ∈ m.flatten, v ≤ 128) →
      extractPalette kmRun img nColors (some m) = []) ∧
    (img.flatten = [] → ∀ mask, extractPalette kmRun img nColors mask = []) := by
  constructor
  · intro m hm
    have hsel : selectedPixels img (some m) = [] := by
      unfold selectedPixels
      rw [List.filterMap_eq_nil_iff]
      intro pm hpm
      have h2 : pm.2 ∈ m.flatten := by
        have := List.of_mem_zip (a := pm.1) (b := pm.2) (by simpa using hpm)
        exact this.2
      rw [if_neg]
      have := hm pm.2 h2
      omega
    unfold extractPalette
    rw [hsel]
    rfl
  · intro hflat mask
    have hsel : selectedPixels img mask = [] := by
      unfold selectedPixels
      cases mask with
      | none => exact hflat
      | some m => rw [hflat]; rfl
    unfold extractPalette
    rw [hsel]
    rfl

/-- A trivial stand-in K-means implementation for the C10 witness. -/
def kmZero : List Px → ℕ → KMeansOut := fun _ _ => { labels := [], centers := [] }

/-- Witness for C10: a mask of zeros over a 1 × 2 image selects no pixel. -/
theorem C10_extract_palette_empty_witness :
    extractPalette kmZero cImg4 5 (some [[0, 0]]) = [] :=
  (C10_extract_palette_empty kmZero cImg4 5).1 [[0, 0]] (by decide)

/-! ## Layer editor (app/service/editing/layer_editor.py) -/

/-- Structured edit parameters (`edit_params` dict): mode plus the fields read
by edit_layer with their python .get defaults. -/
structure EditParams where
  mode : String
  colorHex : String := ""
  alphaQ : ℚ := 13 / 20
  delta : ℚ := 0

/-- python max(lo, min(hi, q)). -/
def clampQ (q lo hi : ℚ) : ℚ := max lo (min hi q)

def hexDigitVal (c : Char) : Option ℕ :=
  if 48 ≤ c.toNat ∧ c.toNat ≤ 57 then some (c.toNat - 48)
  else if 97 ≤ c.toNat ∧ c.toNat ≤ 102 then some (c.toNat - 87)
  else if 65 ≤ c.toNat ∧ c.toNat ≤ 70 then some (c.toNat - 55)
  else none

def hex2Val (c1 c2 : Char) : Option ℕ := do
  let d1 ← hexDigitVal c1
  let d2 ← hexDigitVal c2
  pure (16 * d1 + d2)

/-- `_hex_to_rgb`: strip leading #, require exactly six hex digits, else fail. -/
def hexToRgb (s : String) : Option Px :=
  match s.toList.dropWhile (fun c => c = '#') with
  | [a, b, c, d, e, f] => do
    let r ← hex2Val a b
    let g ← hex2Val c d
    let bl ← hex2Val e f
    pure (r, g, bl)
  | _ => none

/-- Row-major list of in-range pixel coordinates. -/
def allCoords (h w : ℕ) : List (ℕ × ℕ) :=
  (List.range h).flatMap fun y => (List.range w).map fun x => (y, x)

/-- The masked pixels `rgb[m]` (row-major), used by the contrast mean. -/
def maskedPixels (img : Image) (mask : Grid) : List Px :=
  (allCoords (imgH img) (imgW img)).filterMap fun yx =>
    if 0 < gget mask yx.1 yx.2 then some (pget img yx.1 yx.2) else none

/-- Per-channel mean of the masked region; [127,127,127] when the mask is
empty, as in the source. -/
def maskedMean (ps : List Px) (f : Px → ℕ) : ℚ :=
  if ps.length = 0 then 127 else ((ps.map fun p => (f p : ℚ)).sum) / (ps.length : ℚ)

/-- Luminance-gray of a pixel in BGR layout: 0.299 R + 0.587 G + 0.114 B. -/
def grayOfBgr (p : Px) : ℚ :=
  (299 * (p.2.2 : ℚ) + 587 * (p.2.1 : ℚ) + 114 * (p.1 : ℚ)) / 1000

/-- edit_layer of layer_editor.py.  Images are BGR (channel 0 = blue).  The
recolor branch fails on a malformed hex colour; the delta branches clamp delta
into [-1, 1]; an unknown mode returns the input image unchanged. -/
def editLayer (imgBgr : Image) (mask : Grid) (ep : EditParams) : Except String Image :=
  if ep.mode = "recolor" then
    match hexToRgb ep.colorHex with
    | none => Except.error ("invalid hex color")
    | some rgb =>
      let tb : ℚ := (rgb.2.2 : ℚ)
      let tg : ℚ := (rgb.2.1 : ℚ)
      let tr : ℚ := (rgb.1 : ℚ)
      let a := clampQ ep.alphaQ 0 1
      Except.ok (mkImage (imgH imgBgr) (imgW imgBgr) fun y x =>
        let p := pget imgBgr y x
        if 0 < gget mask y x then
          (u8OfQ ((1 - a) * (p.1 : ℚ) + a * tb),
           u8OfQ ((1 - a) * (p.2.1 : ℚ) + a * tg),
           u8OfQ ((1 - a) * (p.2.2 : ℚ) + a * tr))
        else p)
  else if ep.mode = "brightness" ∨ ep.mode = "saturation" ∨ ep.mode = "contrast" then
    let d := clampQ ep.delta (-1) 1
    Except.ok (mkImage (imgH imgBgr) (imgW imgBgr) fun y x =>
      let p := pget imgBgr y x
      if 0 < gget mask y x then
        if ep.mode = "brightness" then
          (u8OfQ ((p.1 : ℚ) * (1 + d)), u8OfQ ((p.2.1 : ℚ) * (1 + d)),
           u8OfQ ((p.2.2 : ℚ) * (1 + d)))
        else if ep.mode = "contrast" then
          let ps := maskedPixels imgBgr mask
          let mr := maskedMean ps fun q => q.2.2
          let mg := maskedMean ps fun q => q.2.1
          let mb := maskedMean ps fun q => q.1
          (u8OfQ (((p.1 : ℚ) - mb) * (1 + d) + mb),
           u8OfQ (((p.2.1 : ℚ) - mg) * (1 + d) + mg),
           u8OfQ (((p.2.2 : ℚ) - mr) * (1 + d) + mr))
        else
          let gq := grayOfBgr p
          (u8OfQ ((1 + d) * (p.1 : ℚ) + (-d) * gq),
           u8OfQ ((1 + d) * (p.2.1 : ℚ) + (-d) * gq),
           u8OfQ ((1 + d) * (p.2.2 : ℚ) + (-d) * gq))
      else p)
  else
    Except.ok imgBgr

theorem clampQ_of_gt_hi (q lo hi : ℚ) (hlo : lo ≤ hi) (hq : hi < q) : clampQ q lo hi = hi := by
  unfold clampQ
  rw [min_eq_left (le_of_lt hq), max_eq_right hlo]

theorem clampQ_of_lt_lo (q lo hi : ℚ) (hq : q < lo) : clampQ q lo hi = lo := by
  unfold clampQ
  rcases le_total hi q with hc | hc
  · rw [min_eq_left hc]
    exact max_eq_left (by linarith)
  · rw [min_eq_right hc]
    exact max_eq_left (le_of_lt hq)

def cImgE : Image := [[(100, 150, 200)]]

def cMaskE : Grid := [[255]]

/-- Counterexample to claim C7 as stated: a brightness edit with delta = 2,
far outside [-1, 1], succeeds (returns an image, no InvalidEditParams error). -/
theorem C7_counterexample :
    (editLayer cImgE cMaskE { mode := ("brightness"), delta := 2 }).isOk = true := by
  decide

/-- Claim C7 (amended): edit_layer does not reject an out-of-range delta for
brightness, saturation or contrast; it clamps it into [-1, 1] and succeeds, so
a delta above 1 behaves exactly like delta = 1 and a delta below -1 exactly
like delta = -1. -/
theorem C7_delta_clamped_not_rejected (img : Image) (mask : Grid) (ep : EditParams)
    (hmode : ep.mode = "brightness" ∨ ep.mode = "saturation" ∨ ep.mode = "contrast") :
    (editLayer img mask ep).isOk = true ∧
      (1 < ep.delta → editLayer img mask ep = editLayer img mask { ep with delta := 1 }) ∧
      (ep.delta < -1 → editLayer img mask ep = editLayer img mask { ep with delta := -1 }) := by
  have hnotrec : ¬ ep.mode = "recolor" := by
    rcases hmode with hm | hm | hm <;> rw [hm] <;> decide
  refine ⟨?_, ?_, ?_⟩
  · unfold editLayer
    rw [if_neg hnotrec, if_pos hmode]
    rfl
  · intro hgt
    unfold editLayer
    rw [if_neg hnotrec, if_pos hmode, if_neg hnotrec, if_pos hmode]
    have hc : clampQ ep.delta (-1) 1 = 1 := clampQ_of_gt_hi _ _ _ (by norm_num) hgt
    have hc1 : clampQ (1 : ℚ) (-1) 1 = 1 := by
      unfold clampQ
      rw [min_self, max_eq_right (by norm_num : (-1 : ℚ) ≤ 1)]
    rw [hc, hc1]
  · intro hlt
    unfold editLayer
    rw [if_neg hnotrec, if_pos hmode, if_neg hnotrec, if_pos hmode]
    have hc : clampQ ep.delta (-1) 1 = -1 := clampQ_of_lt_lo _ _ _ hlt
    have hc1 : clampQ (-1 : ℚ) (-1) 1 = -1 := by
      unfold clampQ
      rw [min_eq_right (by norm_num : (-1 : ℚ) ≤ 1), max_self]
    rw [hc, hc1]

/-- Witness for the amended C7: brightness with delta = 2 equals delta = 1. -/
theorem C7_delta_clamped_not_rejected_witness :
    (editLayer cImgE cMaskE { mode := ("saturation"), delta := 2 }).isOk = true ∧
      (1 < (2 : ℚ) → editLayer cImgE cMaskE { mode := ("saturation"), delta := 2 } =
        editLayer cImgE cMaskE { mode := ("saturation"), delta := (1 : ℚ) }) ∧
      ((2 : ℚ) < -1 → editLayer cImgE cMaskE { mode := ("saturation"), delta := 2 } =
        editLayer cImgE cMaskE { mode := ("saturation"), delta := (-1 : ℚ) }) :=
  C7_delta_clamped_not_rejected cImgE cMaskE { mode := ("saturation"), delta := 2 }
    (by right; left; rfl)

/-! ## Promptable region picking, SAM mode
Embedding of interactive_pick's SAM branch (app/api/interactive.py lines
231-264) over the ranked results of SamSegmenter.predict_at_point
(sam_segmenter.py).  The model inference itself is external; its raw output
(boolean masks with confidence scores) is a parameter. -/

structure MaskResult where
  mask : Grid
  score : ℚ
  area : ℕ
deriving DecidableEq

/-- Descending-score order used by `results.sort(key=..., reverse=True)`. -/
def scoreGe (a b : MaskResult) : Prop := b.score ≤ a.score

instance : DecidableRel scoreGe := fun a b => inferInstanceAs (Decidable (b.score ≤ a.score))

instance : IsTotal MaskResult scoreGe := ⟨fun a b => le_total b.score a.score⟩

instance : IsTrans MaskResult scoreGe := ⟨fun _ _ _ hab hbc => le_trans hbc hab⟩

/-- python's sort is stable; insertion sort below computes exactly the stable
descending-score ordering. -/
def sortByScore (l : List MaskResult) : List MaskResult := l.insertionSort scoreGe

/-- `masks[i].astype(np.uint8) * 255`. -/
def boolTo255 (mb : List (List Bool)) : Grid :=
  mb.map fun row => row.map fun b => if b then 255 else 0

def gridSum (g : Grid) : ℕ := (g.map fun row => row.sum).sum

/-- SamSegmenter.predict_at_point post-processing: each model mask with its
score becomes a MaskResult whose area is `m.sum() // 255`; the result list is
sorted by descending score. -/
def samResults (pairs : List (List (List Bool) × ℚ)) : List MaskResult :=
  sortByScore (pairs.map fun ms =>
    { mask := boolTo255 ms.1, score := ms.2, area := gridSum (boolTo255 ms.1) / 255 })

/-- interactive_pick, SAM branch: none on a background click; otherwise take
`results[0]` and reject it when its area is below `h * w * 0.003` (min_area);
the comparison `area < h * w * 0.003` is carried exactly as
`1000 * area < 3 * h * w`. -/
def pickSam (h w : ℕ) (bgAtClick : ℕ) (results : List MaskResult) : Option MaskResult :=
  if 0 < bgAtClick then none
  else
    match results with
    | [] => none
    | best :: _ => if 1000 * best.area < 3 * (h * w) then none else some best

/-- The full SAM pick path: ranked results from predict_at_point, then the
area gate of interactive_pick. -/
def pickSamAt (h w bgAtClick : ℕ) (pairs : List (List (List Bool) × ℚ)) :
    Option MaskResult :=
  pickSam h w bgAtClick (samResults pairs)

/-- Written from the spec sentence for C6: discard every candidate whose area
is below 0.3% of total image pixels, and return the highest-confidence
remaining candidate ("none" only when no candidate of sufficient area
remains). -/
def specPick (h w : ℕ) (results : List MaskResult) : Option MaskResult :=
  (sortByScore (results.filter fun r => decide (¬ 1000 * r.area < 3 * (h * w)))).head?

def mbSmall : List (List Bool) :=
  (List.range 20).map fun y => (List.range 20).map fun x => decide (y = 0 ∧ x = 0)

def mbBig : List (List Bool) :=
  (List.range 20).map fun y => (List.range 20).map fun x => decide (y ≤ 3 ∧ x ≤ 3)

def cPairs6 : List (List (List Bool) × ℚ) :=
  [(mbSmall, Rat.mk' 9 10), (mbBig, Rat.mk' 4 5)]

/-- Counterexample to claim C6 as stated: on a 20×20 image (min_area = 1.2)
with a top-scored 1-pixel candidate and a second candidate of area 16, the code
returns none (it only examines `results[0]`), although a candidate of
sufficient area remains — the spec-side pick would return it. -/
theorem C6_counterexample :
    pickSamAt 20 20 0 cPairs6 = none ∧
      specPick 20 20 (samResults cPairs6) ≠ none := by decide

/-- Claim C6 (amended): on a non-background click, the pick inspects only the
top-ranked candidate: if it returns a region, that region is a
highest-confidence candidate and its area is at least 0.3% of the image; it
returns none exactly when the model returned no candidate or the first-ranked
candidate's area is below the threshold, regardless of the other candidates. -/
theorem C6_top_candidate_area_gate (h w : ℕ) (results : List MaskResult) :
    (∀ r, pickSam h w 0 (sortByScore results) = some r →
        r ∈ results ∧ (∀ q ∈ results, q.score ≤ r.score) ∧
          ¬ 1000 * r.area < 3 * (h * w)) ∧
    (pickSam h w 0 (sortByScore results) = none ↔
        results = [] ∨
          ∃ b, (sortByScore results).head? = some b ∧ 1000 * b.area < 3 * (h * w)) := by
  have hperm := List.perm_insertionSort scoreGe results
  have hsorted := List.sorted_insertionSort scoreGe results
  unfold pickSam
  rw [if_neg (by omega : ¬ 0 < 0)]
  cases hs : sortByScore results with
  | nil =>
    have hres : results = [] := by
      have := hperm
      rw [show List.insertionSort scoreGe results = sortByScore results from rfl, hs] at this
      exact (List.Perm.nil_eq this).symm
    constructor
    · intro r hr
      simp at hr
    · constructor
      · intro _
        exact Or.inl hres
      · intro _
        rfl
  | cons b t =>
    have hbs : b ∈ sortByScore results := by rw [hs]; exact List.mem_cons_self b t
    have hbmem : b ∈ results := by
      have : b ∈ List.insertionSort scoreGe results := hbs
      exact hperm.mem_iff.mp this
    have hmax : ∀ q ∈ results, q.score ≤ b.score := by
      intro q hq
      have hq2 : q ∈ List.insertionSort scoreGe results := hperm.mem_iff.mpr hq
      rw [show List.insertionSort scoreGe results = sortByScore results from rfl, hs] at hq2
      rcases List.mem_cons.mp hq2 with hqb | hqt
      · rw [hqb]
      · have hsort2 : List.Sorted scoreGe (b :: t) := by
          rw [show List.insertionSort scoreGe results = sortByScore results from rfl, hs]
            at hsorted
          exact hsorted
        exact List.rel_of_sorted_cons hsort2 q hqt
    have hresne : results ≠ [] := by
      intro hcon
      rw [hcon] at hperm
      rw [show List.insertionSort scoreGe [] = sortByScore [] from rfl] at hperm
      have : sortByScore results = [] := by
        rw [hcon]
        rfl
      rw [hs] at this
      exact List.cons_ne_nil b t this
    have hmtch : (match b :: t with
        | [] => (none : Option MaskResult)
        | best :: _ => if 1000 * best.area < 3 * (h * w) then none else some best) =
        (if 1000 * b.area < 3 * (h * w) then none else some b) := rfl
    rw [hmtch]
    by_cases harea : 1000 * b.area < 3 * (h * w)
    · rw [if_pos harea]
      constructor
      · intro r hr
        simp at hr
      · constructor
        · intro _
          right
          exact ⟨b, rfl, harea⟩
        · intro _
          rfl
    · rw [if_neg harea]
      constructor
      · intro r hr
        have hrb : r = b := by
          have := Option.some.inj hr
          rw [← this]
        rw [hrb]
        exact ⟨hbmem, hmax, harea⟩
      · constructor
        · intro hcon
          simp at hcon
        · intro hcon
          rcases hcon with hnil | ⟨b2, hb2, hsmall⟩
          · exact absurd hnil hresne
          · have hb2' : some b = some b2 := hb2
            have : b2 = b := (Option.some.inj hb2').symm
            rw [this] at hsmall
            exact absurd hsmall harea

def cResults6 : List MaskResult :=
  [{ mask := [[255]], score := Rat.mk' 1 2, area := 5 },
   { mask := [[0]], score := Rat.mk' 1 3, area := 9 }]

/-- Witness for the amended C6 on a concrete ranked list (10×10 image). -/
theorem C6_top_candidate_area_gate_witness :
    ({ mask := [[255]], score := Rat.mk' 1 2, area := 5 } : MaskResult) ∈ cResults6 ∧
      (∀ q ∈ cResults6,
        q.score ≤ ({ mask := [[255]], score := Rat.mk' 1 2, area := 5 } : MaskResult).score) ∧
      ¬ 1000 * ({ mask := [[255]], score := Rat.mk' 1 2, area := 5 } : MaskResult).area <
        3 * (10 * 10) :=
  (C6_top_candidate_area_gate 10 10 cResults6).1
    { mask := [[255]], score := Rat.mk' 1 2, area := 5 } (by decide)

/-! ## Flat-design segmenter (app/service/segmentation/flat_segmenter.py)

Helpers shared with the rule segmenter.  Distances from cv2.distanceTransform
(DIST_L2, precise) appear only in comparisons against ratio * max_dist, so they
are represented by their squares (`sqdt`, `maxSqdt`) and each comparison is the
exact cross-multiplied square of the float comparison. -/

/-- Boolean grid access defaulting to false. -/
def bget (r : List (List Bool)) (y x : ℕ) : Bool := (r.getD y []).getD x false

/-- One spreading step of the edge flood fill: a positive-mask pixel is marked
once it lies on the image border or neighbours (4-connectivity) a marked
pixel. -/
def spreadStep (m : Grid) (h w : ℕ) (reach : List (List Bool)) : List (List Bool) :=
  (List.range h).map fun y => (List.range w).map fun x =>
    decide (0 < gget m y x) &&
      (decide (y = 0) || decide (y = h - 1) || decide (x = 0) || decide (x = w - 1) ||
        bget reach y x ||
        (decide (1 ≤ y) && bget reach (y - 1) x) ||
        bget reach (y + 1) x ||
        (decide (1 ≤ x) && bget reach y (x - 1)) ||
        bget reach y (x + 1))

/-- Pixels reachable from the image edges inside the positive region of `m`
(the pixels cv2.floodFill paints 128 in `_flood_fill_from_edges`); h * w
spreading steps reach the fixpoint. -/
def floodReach (m : Grid) (h w : ℕ) : List (List Bool) :=
  Nat.iterate (spreadStep m h w) (h * w)
    ((List.range h).map fun _ => (List.range w).map fun _ => false)

/-- `_flood_fill_from_edges`: foreground = pixels not filled from the edges
(fill_img != 128), i.e. original zeros and interior positive pixels. -/
def floodFillFromEdges (m : Grid) (h w : ℕ) : Grid :=
  mkGrid h w fun y x => if bget (floodReach m h w) y x then 0 else 255

/-- cv2 3×3 rectangular dilation (border pixels ignore the out-of-image part
of the window). -/
def dilate3 (m : Grid) (h w : ℕ) : Grid :=
  mkGrid h w fun y x =>
    if ((List.range 3).any fun dy => (List.range 3).any fun dx =>
        decide (1 ≤ y + dy) && decide (1 ≤ x + dx) &&
          decide (y + dy ≤ h) && decide (x + dx ≤ w) &&
          decide (0 < gget m (y + dy - 1) (x + dx - 1))) then 255 else 0

/-- cv2 3×3 rectangular erosion. -/
def erode3 (m : Grid) (h w : ℕ) : Grid :=
  mkGrid h w fun y x =>
    if ((List.range 3).all fun dy => (List.range 3).all fun dx =>
        !(decide (1 ≤ y + dy) && decide (1 ≤ x + dx) &&
          decide (y + dy ≤ h) && decide (x + dx ≤ w)) ||
          decide (0 < gget m (y + dy - 1) (x + dx - 1))) then 255 else 0

/-- `_morphology_close(mask, 3)`: MORPH_CLOSE = dilate then erode. -/
def morphClose3 (m : Grid) (h w : ℕ) : Grid := erode3 (dilate3 m h w) h w

/-- Label grid access with sentinel default. -/
def lblGet (l : List (List ℕ)) (y x s : ℕ) : ℕ := (l.getD y []).getD x s

/-- Initial labels for connected components: each positive pixel starts as its
own raster index, other cells hold the sentinel h * w. -/
def labelInit (m : Grid) (h w : ℕ) : List (List ℕ) :=
  (List.range h).map fun y => (List.range w).map fun x =>
    if 0 < gget m y x then y * w + x else h * w

/-- One min-label propagation step over the 4-neighbourhood. -/
def labelStep (m : Grid) (h w : ℕ) (l : List (List ℕ)) : List (List ℕ) :=
  (List.range h).map fun y => (List.range w).map fun x =>
    if 0 < gget m y x then
      let s := h * w
      let up := if 1 ≤ y then lblGet l (y - 1) x s else s
      let dn := lblGet l (y + 1) x s
      let lf := if 1 ≤ x then lblGet l y (x - 1) s else s
      let rt := lblGet l y (x + 1) s
      min (lblGet l y x s) (min up (min dn (min lf rt)))
    else h * w

/-- Converged component labels: every positive pixel holds the least raster
index of its 4-connected component (h * w steps suffice). -/
def lccLabels (m : Grid) (h w : ℕ) : List (List ℕ) :=
  Nat.iterate (labelStep m h w) (h * w) (labelInit m h w)

/-- Row-major list of in-range coordinates (declared earlier as allCoords). -/
def compArea (m : Grid) (h w : ℕ) (l : List (List ℕ)) (rep : ℕ) : ℕ :=
  (allCoords h w).countP fun yx =>
    decide (0 < gget m yx.1 yx.2) && decide (lblGet l yx.1 yx.2 (h * w) = rep)

/-- Component representatives, one per label (`List.dedup` keeps the last
occurrence of each label, so the traversal order of the fold below is not
raster discovery order). -/
def compReps (m : Grid) (h w : ℕ) (l : List (List ℕ)) : List ℕ :=
  ((allCoords h w).filterMap fun yx =>
    if 0 < gget m yx.1 yx.2 then some (lblGet l yx.1 yx.2 (h * w)) else none).dedup

/-- Largest 4-connected component.  The strictly-larger fold picks a component
of maximal area; when two components tie on exact area the one kept may differ
from cv2.connectedComponentsWithStats-with-np.argmax (or the raster DFS), which
break ties by discovery order — no theorem below depends on a tie. -/
def largestCC (m : Grid) (h w : ℕ) : Grid :=
  let l := lccLabels m h w
  let best := (compReps m h w l).foldl
    (fun acc rep => if compArea m h w l acc < compArea m h w l rep then rep else acc) (h * w)
  mkGrid h w fun y x =>
    if decide (0 < gget m y x) && decide (lblGet l y x (h * w) = best) then 255 else 0

/-- Squared Euclidean distance between two coordinates. -/
def coordDist2 (y x b a : ℕ) : ℕ :=
  (max y b - min y b) ^ 2 + (max x a - min x a) ^ 2

/-- Squared distance transform: least squared distance to a zero pixel of the
mask (0 on zero pixels themselves); the sentinel is larger than any in-image
squared distance and is never reached when a zero pixel exists. -/
def sqdt (m : Grid) (h w y x : ℕ) : ℕ :=
  ((allCoords h w).filterMap fun ba =>
    if gget m ba.1 ba.2 = 0 then some (coordDist2 y x ba.1 ba.2) else none).foldr
    min ((h + w) * (h + w) + 1)

/-- Squared maximum of the distance transform over the image. -/
def maxSqdt (m : Grid) (h w : ℕ) : ℕ :=
  ((allCoords h w).map fun yx => sqdt m h w yx.1 yx.2).foldr max 0

/-- Exact form of `dist > ratio * max_dist` for a nonnegative ratio, on squared
distances: cross-multiplied by the ratio's denominator squared. -/
def ratioLt (r : ℚ) (maxSq d : ℕ) : Bool :=
  decide (r.num ^ 2 * (maxSq : ℤ) < (d : ℤ) * ((r.den : ℤ)) ^ 2)

/-- Exact form of `dist <= ratio * max_dist` for a nonnegative ratio. -/
def ratioGe (r : ℚ) (maxSq d : ℕ) : Bool :=
  decide ((d : ℤ) * ((r.den : ℤ)) ^ 2 ≤ r.num ^ 2 * (maxSq : ℤ))

/-- The loop of flat_segmenter lines 214-229: successive distance bands
`prev_threshold < dist <= ratio_i * max_dist`, one 0/255 grid per ratio. -/
def layerGridsAux (m : Grid) (h w maxSq : ℕ) (prev : ℚ) (rs : List ℚ) : List Grid :=
  match rs with
  | [] => []
  | r :: rest =>
    (mkGrid h w fun y x =>
      if ratioLt prev maxSq (sqdt m h w y x) && ratioGe r maxSq (sqdt m h w y x)
        then 255 else 0) :: layerGridsAux m h w maxSq r rest

/-- `current_ratios` determination of flat_segmenter lines 201-212 (sorted is
python's stable sort; an explicit empty ratio list, an IndexError in the
source, sorts to the bare [1.0] here and is excluded by hypothesis). -/
def currentRatios (layerCount : ℕ) (layerRatios : Option (List ℚ)) (alphaVal : ℚ) :
    List ℚ :=
  match layerRatios with
  | none =>
    if layerCount ≤ 2 then [alphaVal, 1]
    else (List.range layerCount).map fun i => (((i + 1 : ℕ) : ℚ)) / ((layerCount : ℕ) : ℚ)
  | some rs =>
    let s := rs.insertionSort fun a b => a ≤ b
    if s.getLast? = some 1 then s else s ++ [1]

/-- `_ensure_u8_mask`. -/
def ensureU8 (g : Grid) (h w : ℕ) : Grid :=
  mkGrid h w fun y x => if 0 < gget g y x then 255 else 0

/-- The LayerSet produced by segment_flat_design: named masks, the indexed
layer masks, and the _meta fields the claims refer to (max_dist as square). -/
structure FlatResult where
  H : ℕ
  W : ℕ
  rugMask : Grid
  backgroundMask : Grid
  layerMasks : List Grid
  fieldMask : Option Grid
  borderMask : Option Grid
  maxSq : ℕ
  ratiosUsed : List ℚ
  segMode : String

def dfltFlat : FlatResult :=
  { H := 0, W := 0, rugMask := [], backgroundMask := [], layerMasks := [],
    fieldMask := none, borderMask := none, maxSq := 0, ratiosUsed := [], segMode := ("none") }

/-- Step 4 of segment_flat_design (lines 184-244), from the cleaned rug mask:
distance bands, semantic names for the 2-ratio case, single layer when
max_dist < 2 (i.e. maxSq < 4). -/
def bgGridOf (rug : Grid) (h w : ℕ) : Grid :=
  mkGrid h w fun y x => if gget rug y x = 0 then 255 else 0

def flatBuild (rug : Grid) (h w : ℕ) (alphaVal : ℚ) (layerCount : ℕ)
    (layerRatios : Option (List ℚ)) (segMode : String) : FlatResult :=
  if maxSqdt rug h w < 4 then
    { H := h, W := w, rugMask := ensureU8 rug h w,
      backgroundMask := ensureU8 (bgGridOf rug h w) h w,
      layerMasks := [ensureU8 rug h w], fieldMask := some (ensureU8 rug h w),
      borderMask := some (mkGrid h w fun _ _ => 0), maxSq := maxSqdt rug h w,
      ratiosUsed := [1], segMode := segMode }
  else
    { H := h, W := w, rugMask := ensureU8 rug h w,
      backgroundMask := ensureU8 (bgGridOf rug h w) h w,
      layerMasks := layerGridsAux rug h w (maxSqdt rug h w) 0
        (currentRatios layerCount layerRatios alphaVal),
      fieldMask := if (currentRatios layerCount layerRatios alphaVal).length = 2 then
        some ((layerGridsAux rug h w (maxSqdt rug h w) 0
          (currentRatios layerCount layerRatios alphaVal)).getD 1 []) else none,
      borderMask := if (currentRatios layerCount layerRatios alphaVal).length = 2 then
        some ((layerGridsAux rug h w (maxSqdt rug h w) 0
          (currentRatios layerCount layerRatios alphaVal)).getD 0 []) else none,
      maxSq := maxSqdt rug h w,
      ratiosUsed := currentRatios layerCount layerRatios alphaVal, segMode := segMode }

/-- Grayscale in thousandths: 0.114 B + 0.587 G + 0.299 R on BGR pixels,
scaled by 1000 to stay integral. -/
def gray1000 (p : Px) : ℕ := 114 * p.1 + 587 * p.2.1 + 299 * p.2.2

/-- Number of positive pixels of a mask. -/
def fgCount (m : Grid) (h w : ℕ) : ℕ :=
  (allCoords h w).countP fun yx => decide (0 < gget m yx.1 yx.2)

/-- Step 1 of segment_flat_design: foreground from a matching nonempty alpha
plane, else the white-threshold mask refined by the edge flood fill; returns
the mask and the seg_mode string. -/
def flatStep1 (img : Image) (alpha : Option Grid) (whiteThreshold : ℕ) : Grid × String :=
  let h := imgH img
  let w := imgW img
  let alphaRug : Option Grid :=
    match alpha with
    | some a =>
      if gridH a = h ∧ gridW a = w then
        some (mkGrid h w fun y x => if 0 < gget a y x then 255 else 0)
      else none
    | none => none
  let whiteRug : Grid :=
    floodFillFromEdges
      (mkGrid h w fun y x =>
        if 1000 * whiteThreshold ≤ gray1000 (pget img y x) then 255 else 0) h w
  match alphaRug with
  | some g => if gridSum g = 0 then (whiteRug, ("white_threshold")) else (g, ("alpha"))
  | none => (whiteRug, ("white_threshold"))

/-- Steps 2-3 of segment_flat_design: 3×3 morphological close then largest
4-connected component. -/
def flatRug (img : Image) (alpha : Option Grid) (whiteThreshold : ℕ) : Grid :=
  largestCC (morphClose3 (flatStep1 img alpha whiteThreshold).1 (imgH img) (imgW img))
    (imgH img) (imgW img)

/-- segment_flat_design: step-1 foreground, 3×3 close, largest component, the
1%/99% foreground-share validation (ValueError branches), then the
distance-band build.  `fg_ratio < 0.01` is `100 fg < total` (the degenerate
total = 0 is ratio 0 as in the source), `fg_ratio > 0.99` is
`99 total < 100 fg`. -/
def segmentFlatDesign (img : Image) (alpha : Option Grid) (alphaVal : ℚ)
    (whiteThreshold : ℕ) (layerCount : ℕ) (layerRatios : Option (List ℚ)) :
    Except String FlatResult :=
  if 100 * fgCount (flatRug img alpha whiteThreshold) (imgH img) (imgW img) <
      imgH img * imgW img ∨ imgH img * imgW img = 0 then
    Except.error ("Segmentation failed: foreground too small")
  else if 99 * (imgH img * imgW img) <
      100 * fgCount (flatRug img alpha whiteThreshold) (imgH img) (imgW img) then
    Except.error ("Segmentation failed: foreground too large")
  else
    Except.ok (flatBuild (flatRug img alpha whiteThreshold) (imgH img) (imgW img) alphaVal
      layerCount layerRatios (flatStep1 img alpha whiteThreshold).2)

/-- 0/1 indicator of a positive mask value. -/
def indPos (v : ℕ) : ℕ := if 0 < v then 1 else 0

/-- Sum of the 0/1 indicators of the indexed layer masks at one pixel. -/
def layerIndSum (res : FlatResult) (y x : ℕ) : ℕ :=
  (res.layerMasks.map fun g => indPos (gget g y x)).sum

theorem ratioLt_iff (r : ℚ) (maxSq d : ℕ) :
    ratioLt r maxSq d = true ↔ (r : ℚ) ^ 2 * (maxSq : ℚ) < (d : ℚ) := by
  unfold ratioLt
  rw [decide_eq_true_iff]
  have hden : (0 : ℚ) < ((r.den : ℕ) : ℚ) := by
    exact_mod_cast r.pos
  have hden2 : (0 : ℚ) < ((r.den : ℕ) : ℚ) ^ 2 := by positivity
  constructor
  · intro hz
    have hq : ((r.num : ℚ)) ^ 2 * (maxSq : ℚ) < (d : ℚ) * ((r.den : ℕ) : ℚ) ^ 2 := by
      exact_mod_cast hz
    rw [show (r : ℚ) = (r.num : ℚ) / ((r.den : ℕ) : ℚ) from (Rat.num_div_den r).symm]
    rw [div_pow, div_mul_eq_mul_div, div_lt_iff₀ hden2]
    exact hq
  · intro hq
    rw [show (r : ℚ) = (r.num : ℚ) / ((r.den : ℕ) : ℚ) from (Rat.num_div_den r).symm] at hq
    rw [div_pow, div_mul_eq_mul_div, div_lt_iff₀ hden2] at hq
    exact_mod_cast hq

theorem ratioGe_iff (r : ℚ) (maxSq d : ℕ) :
    ratioGe r maxSq d = true ↔ (d : ℚ) ≤ (r : ℚ) ^ 2 * (maxSq : ℚ) := by
  unfold ratioGe
  rw [decide_eq_true_iff]
  have hden : (0 : ℚ) < ((r.den : ℕ) : ℚ) := by
    exact_mod_cast r.pos
  have hden2 : (0 : ℚ) < ((r.den : ℕ) : ℚ) ^ 2 := by positivity
  constructor
  · intro hz
    have hq : (d : ℚ) * ((r.den : ℕ) : ℚ) ^ 2 ≤ ((r.num : ℚ)) ^ 2 * (maxSq : ℚ) := by
      exact_mod_cast hz
    rw [show (r : ℚ) = (r.num : ℚ) / ((r.den : ℕ) : ℚ) from (Rat.num_div_den r).symm]
    rw [div_pow, div_mul_eq_mul_div, le_div_iff₀ hden2]
    exact hq
  · intro hq
    rw [show (r : ℚ) = (r.num : ℚ) / ((r.den : ℕ) : ℚ) from (Rat.num_div_den r).symm] at hq
    rw [div_pow, div_mul_eq_mul_div, le_div_iff₀ hden2] at hq
    exact_mod_cast hq

/-- No band fires when the squared distance is at or below the incoming
threshold (thresholds ascend along the chain). -/
theorem bandSum_zero (m : Grid) (h w maxSq : ℕ) (y x : ℕ) (prev : ℚ) (rs : List ℚ)
    (hprev : 0 ≤ prev) (hchain : List.Chain (· ≤ ·) prev rs)
    (hy : y < h) (hx : x < w)
    (hd : ((sqdt m h w y x : ℕ) : ℚ) ≤ prev ^ 2 * (maxSq : ℚ)) :
    ((layerGridsAux m h w maxSq prev rs).map fun g => indPos (gget g y x)).sum = 0 := by
  induction rs generalizing prev with
  | nil => rfl
  | cons r rest ih =>
    rcases hchain with _ | ⟨hpr, hch⟩
    unfold layerGridsAux
    simp only [List.map_cons, List.sum_cons]
    have hflag : ratioLt prev maxSq (sqdt m h w y x) = false := by
      rw [← Bool.not_eq_true, ratioLt_iff]
      exact not_lt.mpr hd
    have hzero : indPos (gget (mkGrid h w fun y x =>
        if ratioLt prev maxSq (sqdt m h w y x) && ratioGe r maxSq (sqdt m h w y x)
          then 255 else 0) y x) = 0 := by
      rw [gget_mkGrid _ _ _ y x hy hx, hflag]
      rfl
    rw [hzero]
    have hd2 : ((sqdt m h w y x : ℕ) : ℚ) ≤ r ^ 2 * (maxSq : ℚ) := by
      refine le_trans hd ?_
      have : prev ^ 2 ≤ r ^ 2 := by nlinarith
      nlinarith [Nat.cast_nonneg (α := ℚ) maxSq]
    simpa using ih r (le_trans hprev hpr) hch hd2

/-- Exactly one band fires when the squared distance lies strictly above the
incoming threshold and at or below the last band's threshold. -/
theorem bandSum_one (m : Grid) (h w maxSq : ℕ) (y x : ℕ) (prev : ℚ) (rs : List ℚ)
    (hprev : 0 ≤ prev) (hchain : List.Chain (· ≤ ·) prev rs)
    (hy : y < h) (hx : x < w)
    (hlo : prev ^ 2 * (maxSq : ℚ) < ((sqdt m h w y x : ℕ) : ℚ))
    (hhi : ∃ rl, rs.getLast? = some rl ∧
      ((sqdt m h w y x : ℕ) : ℚ) ≤ rl ^ 2 * (maxSq : ℚ)) :
    ((layerGridsAux m h w maxSq prev rs).map fun g => indPos (gget g y x)).sum = 1 := by
  induction rs generalizing prev with
  | nil =>
    obtain ⟨rl, hrl, _⟩ := hhi
    simp at hrl
  | cons r rest ih =>
    rcases hchain with _ | ⟨hpr, hch⟩
    unfold layerGridsAux
    simp only [List.map_cons, List.sum_cons]
    by_cases hin : ((sqdt m h w y x : ℕ) : ℚ) ≤ r ^ 2 * (maxSq : ℚ)
    · have hflag : (ratioLt prev maxSq (sqdt m h w y x) &&
          ratioGe r maxSq (sqdt m h w y x)) = true := by
        rw [Bool.and_eq_true, ratioLt_iff, ratioGe_iff]
        exact ⟨hlo, hin⟩
      have hone : indPos (gget (mkGrid h w fun y x =>
          if ratioLt prev maxSq (sqdt m h w y x) && ratioGe r maxSq (sqdt m h w y x)
            then 255 else 0) y x) = 1 := by
        rw [gget_mkGrid _ _ _ y x hy hx, hflag]
        rfl
      rw [hone, bandSum_zero m h w maxSq y x r rest (le_trans hprev hpr) hch hy hx hin]
    · have hflag : (ratioLt prev maxSq (sqdt m h w y x) &&
          ratioGe r maxSq (sqdt m h w y x)) = false := by
        rw [Bool.and_eq_false_iff]
        right
        rw [← Bool.not_eq_true, ratioGe_iff]
        exact hin
      have hzero : indPos (gget (mkGrid h w fun y x =>
          if ratioLt prev maxSq (sqdt m h w y x) && ratioGe r maxSq (sqdt m h w y x)
            then 255 else 0) y x) = 0 := by
        rw [gget_mkGrid _ _ _ y x hy hx, hflag]
        rfl
      rw [hzero]
      have hrestne : rest ≠ [] := by
        intro hcon
        subst hcon
        obtain ⟨rl, hrl, hdle⟩ := hhi
        simp at hrl
        subst hrl
        exact hin hdle
      have hhi2 : ∃ rl, rest.getLast? = some rl ∧
          ((sqdt m h w y x : ℕ) : ℚ) ≤ rl ^ 2 * (maxSq : ℚ) := by
        obtain ⟨rl, hrl, hdle⟩ := hhi
        cases rest with
        | nil => exact absurd rfl hrestne
        | cons b t =>
          refine ⟨rl, ?_, hdle⟩
          rw [List.getLast?_cons_cons] at hrl
          exact hrl
      rw [ih r (le_trans hprev hpr) hch (not_le.mp hin) hhi2]

theorem mem_allCoords (h w y x : ℕ) : (y, x) ∈ allCoords h w ↔ y < h ∧ x < w := by
  unfold allCoords
  simp [List.mem_flatMap]

theorem length_allCoords (h w : ℕ) : (allCoords h w).length = h * w := by
  unfold allCoords
  rw [List.length_flatMap]
  have : ∀ y : ℕ, (List.length ∘ fun y => (List.range w).map fun x => (y, x)) y = w := by
    intro y
    simp
  rw [List.map_congr_left fun y _ => this y]
  simp [List.map_const', mul_comm]

theorem foldr_min_le {l : List ℕ} {a : ℕ} (init : ℕ) (ha : a ∈ l) :
    l.foldr min init ≤ a := by
  induction l with
  | nil => simp at ha
  | cons b t ih =>
    rcases List.mem_cons.mp ha with rfl | hat
    · exact min_le_left _ _
    · exact le_trans (min_le_right _ _) (ih hat)

theorem le_foldr_min {l : List ℕ} {init b : ℕ} (hb : b ≤ init) (h : ∀ a ∈ l, b ≤ a) :
    b ≤ l.foldr min init := by
  induction l with
  | nil => exact hb
  | cons c t ih =>
    exact le_min (h c (List.mem_cons_self c t)) (ih fun a ha => h a (List.mem_cons_of_mem _ ha))

theorem le_foldr_max {l : List ℕ} {a : ℕ} (init : ℕ) (ha : a ∈ l) :
    a ≤ l.foldr max init := by
  induction l with
  | nil => simp at ha
  | cons b t ih =>
    rcases List.mem_cons.mp ha with rfl | hat
    · exact le_max_left _ _
    · exact le_trans (ih hat) (le_max_right _ _)

theorem sqdt_zero_of_bg (m : Grid) (h w y x : ℕ) (hy : y < h) (hx : x < w)
    (h0 : gget m y x = 0) : sqdt m h w y x = 0 := by
  have hmem : (0 : ℕ) ∈ (allCoords h w).filterMap fun ba =>
      if gget m ba.1 ba.2 = 0 then some (coordDist2 y x ba.1 ba.2) else none := by
    rw [List.mem_filterMap]
    refine ⟨(y, x), (mem_allCoords h w y x).mpr ⟨hy, hx⟩, ?_⟩
    rw [if_pos h0]
    unfold coordDist2
    simp
  exact Nat.le_zero.mp (foldr_min_le _ hmem)

theorem coordDist2_pos (y x b a : ℕ) (hne : ¬ (b = y ∧ a = x)) :
    1 ≤ coordDist2 y x b a := by
  unfold coordDist2
  by_cases hb : b = y
  · have hax : a ≠ x := fun hc => hne ⟨hb, hc⟩
    have h1 : 1 ≤ max x a - min x a := by omega
    have h2 : 1 ≤ (max x a - min x a) ^ 2 :=
      le_trans (by norm_num) (Nat.pow_le_pow_left h1 2)
    exact le_trans h2 (Nat.le_add_left _ _)
  · have h1 : 1 ≤ max y b - min y b := by omega
    have h2 : 1 ≤ (max y b - min y b) ^ 2 :=
      le_trans (by norm_num) (Nat.pow_le_pow_left h1 2)
    exact le_trans h2 (Nat.le_add_right _ _)

theorem sqdt_pos_of_fg (m : Grid) (h w y x : ℕ) (hfg : 0 < gget m y x) :
    1 ≤ sqdt m h w y x := by
  unfold sqdt
  refine le_foldr_min (by nlinarith) ?_
  intro a ha
  rw [List.mem_filterMap] at ha
  obtain ⟨ba, _, hba⟩ := ha
  by_cases h0 : gget m ba.1 ba.2 = 0
  · rw [if_pos h0] at hba
    have := Option.some.inj hba
    rw [← this]
    refine coordDist2_pos y x ba.1 ba.2 ?_
    rintro ⟨rfl, rfl⟩
    omega
  · rw [if_neg h0] at hba
    exact absurd hba (Option.some_ne_none a).symm

theorem sqdt_le_maxSqdt (m : Grid) (h w y x : ℕ) (hy : y < h) (hx : x < w) :
    sqdt m h w y x ≤ maxSqdt m h w := by
  unfold maxSqdt
  refine le_foldr_max 0 ?_
  rw [List.mem_map]
  exact ⟨(y, x), (mem_allCoords h w y x).mpr ⟨hy, hx⟩, rfl⟩

theorem currentRatios_props (layerCount : ℕ) (layerRatios : Option (List ℚ)) (alphaVal : ℚ)
    (hα : 0 < alphaVal ∧ alphaVal ≤ 1)
    (hlrs : ∀ rs, layerRatios = some rs → rs ≠ [] ∧ ∀ r ∈ rs, 0 < r ∧ r ≤ 1) :
    List.Chain (· ≤ ·) 0 (currentRatios layerCount layerRatios alphaVal) ∧
      (currentRatios layerCount layerRatios alphaVal).getLast? = some 1 := by
  cases layerRatios with
  | none =>
    by_cases hlc : layerCount ≤ 2
    · simp only [currentRatios]
      rw [if_pos hlc]
      refine ⟨List.Chain.cons (le_of_lt hα.1) (List.Chain.cons hα.2 List.Chain.nil), rfl⟩
    · simp only [currentRatios]
      rw [if_neg hlc]
      have hn : 0 < layerCount := by omega
      have hnq : (0 : ℚ) < ((layerCount : ℕ) : ℚ) := by exact_mod_cast hn
      constructor
      · rw [List.chain_iff_pairwise, List.pairwise_cons]
        constructor
        · intro b hb
          rw [List.mem_map] at hb
          obtain ⟨i, _, rfl⟩ := hb
          positivity
        · rw [List.pairwise_map]
          refine List.Pairwise.imp ?_ (List.pairwise_lt_range layerCount)
          intro i j hij
          have hcast : ((i + 1 : ℕ) : ℚ) ≤ ((j + 1 : ℕ) : ℚ) := by
            exact_mod_cast (by omega : i + 1 ≤ j + 1)
          exact (div_le_div_iff_of_pos_right hnq).mpr hcast
      · obtain ⟨k, rfl⟩ : ∃ k, layerCount = k + 1 := ⟨layerCount - 1, by omega⟩
        rw [List.range_succ, List.map_append, List.map_singleton]
        rw [List.getLast?_concat]
        congr 1
        rw [div_eq_one_iff_eq (by exact_mod_cast hnq.ne')]
  | some rs =>
    obtain ⟨hne, hvals⟩ := hlrs rs rfl
    have hperm := List.perm_insertionSort (fun a b : ℚ => a ≤ b) rs
    have hsorted : List.Sorted (· ≤ ·) (rs.insertionSort fun a b : ℚ => a ≤ b) :=
      List.sorted_insertionSort _ rs
    have hmem : ∀ r ∈ rs.insertionSort fun a b : ℚ => a ≤ b, 0 < r ∧ r ≤ 1 := by
      intro r hr
      exact hvals r (hperm.mem_iff.mp hr)
    have hchain0 : List.Chain (· ≤ ·) 0 (rs.insertionSort fun a b : ℚ => a ≤ b) := by
      rw [List.chain_iff_pairwise, List.pairwise_cons]
      exact ⟨fun b hb => le_of_lt (hmem b hb).1, hsorted⟩
    simp only [currentRatios]
    by_cases hlast : (rs.insertionSort fun a b : ℚ => a ≤ b).getLast? = some 1
    · rw [if_pos hlast]
      exact ⟨hchain0, hlast⟩
    · rw [if_neg hlast]
      constructor
      · rw [List.chain_iff_pairwise] at hchain0 ⊢
        rw [show (0 : ℚ) :: ((rs.insertionSort fun a b : ℚ => a ≤ b) ++ [1]) =
          ((0 : ℚ) :: (rs.insertionSort fun a b : ℚ => a ≤ b)) ++ [1] from rfl]
        rw [List.pairwise_append]
        refine ⟨hchain0, List.pairwise_singleton _ _, ?_⟩
        intro a ha b hb
        rw [List.mem_singleton] at hb
        subst hb
        rcases List.mem_cons.mp ha with rfl | ha2
        · norm_num
        · exact (hmem a ha2).2
      · exact List.getLast?_concat _

theorem flatBuild_H (rug : Grid) (h w : ℕ) (αv : ℚ) (lc : ℕ) (lrs : Option (List ℚ))
    (mode : String) : (flatBuild rug h w αv lc lrs mode).H = h := by
  unfold flatBuild
  split <;> rfl

theorem flatBuild_W (rug : Grid) (h w : ℕ) (αv : ℚ) (lc : ℕ) (lrs : Option (List ℚ))
    (mode : String) : (flatBuild rug h w αv lc lrs mode).W = w := by
  unfold flatBuild
  split <;> rfl

theorem ensureU8_bg_val (rug : Grid) (h w y x : ℕ) (hy : y < h) (hx : x < w) :
    gget (ensureU8 (bgGridOf rug h w) h w) y x = if gget rug y x = 0 then 255 else 0 := by
  unfold ensureU8 bgGridOf
  rw [gget_mkGrid _ _ _ y x hy hx, gget_mkGrid _ _ _ y x hy hx]
  by_cases h0 : gget rug y x = 0
  · rw [if_pos h0]
    norm_num
  · rw [if_neg h0]
    norm_num

theorem ensureU8_val (g : Grid) (h w y x : ℕ) (hy : y < h) (hx : x < w) :
    gget (ensureU8 g h w) y x = if 0 < gget g y x then 255 else 0 := by
  unfold ensureU8
  rw [gget_mkGrid _ _ _ y x hy hx]

/-- Partition of the layer bands plus background for any cleaned foreground
mask, at every in-range pixel, provided the ratios respect the (0, 1]
contract and a background pixel exists. -/
theorem flatBuild_partition (rug : Grid) (h w : ℕ) (αv : ℚ) (lc : ℕ)
    (lrs : Option (List ℚ)) (mode : String)
    (hα : 0 < αv ∧ αv ≤ 1)
    (hlrs : ∀ rs, lrs = some rs → rs ≠ [] ∧ ∀ r ∈ rs, 0 < r ∧ r ≤ 1)
    (y x : ℕ) (hy : y < h) (hx : x < w) :
    layerIndSum (flatBuild rug h w αv lc lrs mode) y x +
      indPos (gget (flatBuild rug h w αv lc lrs mode).backgroundMask y x) = 1 := by
  unfold flatBuild
  by_cases hthin : maxSqdt rug h w < 4
  · rw [if_pos hthin]
    unfold layerIndSum
    dsimp only
    simp only [List.map_cons, List.map_nil, List.sum_cons, List.sum_nil]
    rw [ensureU8_val rug h w y x hy hx, ensureU8_bg_val rug h w y x hy hx]
    by_cases h0 : gget rug y x = 0
    · rw [if_neg (by omega : ¬ 0 < gget rug y x), if_pos h0]
      rfl
    · rw [if_pos (by omega : 0 < gget rug y x), if_neg h0]
      rfl
  · rw [if_neg hthin]
    unfold layerIndSum
    dsimp only
    obtain ⟨hchain, hlast⟩ := currentRatios_props lc lrs αv hα hlrs
    rw [ensureU8_bg_val rug h w y x hy hx]
    by_cases h0 : gget rug y x = 0
    · rw [bandSum_zero rug h w (maxSqdt rug h w) y x 0 _ le_rfl hchain hy hx ?_]
      · rw [if_pos h0]
        rfl
      · rw [sqdt_zero_of_bg rug h w y x hy hx h0]
        norm_num
    · rw [bandSum_one rug h w (maxSqdt rug h w) y x 0 _ le_rfl hchain hy hx ?_ ?_]
      · rw [if_neg h0]
        rfl
      · have h1 : 1 ≤ sqdt rug h w y x := sqdt_pos_of_fg rug h w y x (by omega)
        have : (1 : ℚ) ≤ ((sqdt rug h w y x : ℕ) : ℚ) := by exact_mod_cast h1
        nlinarith
      · refine ⟨1, hlast, ?_⟩
        have hle : sqdt rug h w y x ≤ maxSqdt rug h w := sqdt_le_maxSqdt rug h w y x hy hx
        have : ((sqdt rug h w y x : ℕ) : ℚ) ≤ ((maxSqdt rug h w : ℕ) : ℚ) := by
          exact_mod_cast hle
        nlinarith

theorem exists_not_of_countP_lt {α : Type} {l : List α} {p : α → Bool}
    (h : List.countP p l < l.length) : ∃ a ∈ l, ¬ p a = true := by
  by_contra hcon
  push_neg at hcon
  have : List.countP p l = l.length := List.countP_eq_length.mpr hcon
  omega

/-- Claim C1 (amended, segment_flat_design part): every LayerSet produced by
segment_flat_design satisfies the partition property — at every in-range
pixel the 0/1 indicators of the indexed layer masks plus the background mask
sum to exactly 1 (alpha_val and any explicit ratio list within the (0,1]
input contract). -/
theorem C1_flat_partition (img : Image) (alpha : Option Grid) (αv : ℚ) (wt lc : ℕ)
    (lrs : Option (List ℚ))
    (hα : 0 < αv ∧ αv ≤ 1)
    (hlrs : ∀ rs, lrs = some rs → rs ≠ [] ∧ ∀ r ∈ rs, 0 < r ∧ r ≤ 1)
    (hok : (segmentFlatDesign img alpha αv wt lc lrs).isOk = true) :
    ∀ y x,
      y < ((segmentFlatDesign img alpha αv wt lc lrs).toOption.getD dfltFlat).H →
      x < ((segmentFlatDesign img alpha αv wt lc lrs).toOption.getD dfltFlat).W →
      layerIndSum ((segmentFlatDesign img alpha αv wt lc lrs).toOption.getD dfltFlat) y x +
        indPos (gget ((segmentFlatDesign img alpha αv wt lc lrs).toOption.getD
          dfltFlat).backgroundMask y x) = 1 := by
  unfold segmentFlatDesign at hok ⊢
  by_cases hc1 : 100 * fgCount (flatRug img alpha wt) (imgH img) (imgW img) <
      imgH img * imgW img ∨ imgH img * imgW img = 0
  · rw [if_pos hc1] at hok
    simp [Except.isOk, Except.toBool] at hok
  · rw [if_neg hc1] at hok ⊢
    by_cases hc2 : 99 * (imgH img * imgW img) <
        100 * fgCount (flatRug img alpha wt) (imgH img) (imgW img)
    · rw [if_pos hc2] at hok
      simp [Except.isOk, Except.toBool] at hok
    · rw [if_neg hc2]
      intro y x hy hx
      rw [show ((Except.ok (flatBuild (flatRug img alpha wt) (imgH img) (imgW img) αv lc lrs
        (flatStep1 img alpha wt).2) : Except String FlatResult)).toOption.getD dfltFlat =
        flatBuild (flatRug img alpha wt) (imgH img) (imgW img) αv lc lrs
          (flatStep1 img alpha wt).2 from rfl] at hy hx ⊢
      rw [flatBuild_H] at hy
      rw [flatBuild_W] at hx
      exact flatBuild_partition (flatRug img alpha wt) (imgH img) (imgW img) αv lc lrs
        (flatStep1 img alpha wt).2 hα hlrs y x hy hx

/-- Positive pixels of the border layer of a produced LayerSet. -/
def borderPixCount (res : FlatResult) : ℕ :=
  (allCoords res.H res.W).countP fun yx =>
    decide (0 < gget (res.borderMask.getD []) yx.1 yx.2)

/-- Claim C8: for a foreground mask whose distance-transform maximum is at
least 2 (maxSq ≥ 4) and border ratios 0 < r1 ≤ r2 ≤ 1, the 2-layer split with
ratio r2 has at least as many border pixels as the one with ratio r1. -/
theorem C8_border_monotone (rug : Grid) (h w : ℕ) (mode : String) (r1 r2 : ℚ)
    (hmax : 4 ≤ maxSqdt rug h w) (hr1 : 0 < r1) (hr12 : r1 ≤ r2) (hr2 : r2 ≤ 1) :
    borderPixCount (flatBuild rug h w r1 2 none mode) ≤
      borderPixCount (flatBuild rug h w r2 2 none mode) := by
  have hratios : ∀ r : ℚ, currentRatios 2 none r = [r, 1] := by
    intro r
    simp [currentRatios]
  have hnotthin : ¬ maxSqdt rug h w < 4 := by omega
  unfold borderPixCount
  rw [flatBuild_H, flatBuild_H, flatBuild_W, flatBuild_W]
  have hborder : ∀ r : ℚ, (flatBuild rug h w r 2 none mode).borderMask =
      some (mkGrid h w fun y x =>
        if ratioLt 0 (maxSqdt rug h w) (sqdt rug h w y x) &&
          ratioGe r (maxSqdt rug h w) (sqdt rug h w y x) then 255 else 0) := by
    intro r
    unfold flatBuild
    rw [if_neg hnotthin]
    dsimp only
    rw [hratios r]
    rw [if_pos (by rfl : ([r, 1] : List ℚ).length = 2)]
    rfl
  rw [hborder r1, hborder r2]
  simp only [Option.getD_some]
  refine List.countP_mono_left ?_
  intro yx hmem hp
  have hyx := (mem_allCoords h w yx.1 yx.2).mp (by
    obtain ⟨a, b⟩ := yx
    exact hmem)
  rw [decide_eq_true_iff] at hp ⊢
  rw [gget_mkGrid _ _ _ yx.1 yx.2 hyx.1 hyx.2] at hp ⊢
  by_cases hflag : (ratioLt 0 (maxSqdt rug h w) (sqdt rug h w yx.1 yx.2) &&
      ratioGe r1 (maxSqdt rug h w) (sqdt rug h w yx.1 yx.2)) = true
  · rw [Bool.and_eq_true] at hflag
    have hge2 : ratioGe r2 (maxSqdt rug h w) (sqdt rug h w yx.1 yx.2) = true := by
      rw [ratioGe_iff]
      have hge1 := (ratioGe_iff r1 (maxSqdt rug h w) (sqdt rug h w yx.1 yx.2)).mp hflag.2
      have hsq : r1 ^ 2 ≤ r2 ^ 2 := by nlinarith
      nlinarith [Nat.cast_nonneg (α := ℚ) (maxSqdt rug h w)]
    rw [hflag.1, hge2]
    norm_num
  · rw [if_neg (by simpa using hflag)] at hp
    omega

/-- Concrete 8×8 foreground mask (4×4 block) whose squared distance-transform
maximum is 4, i.e. max_dist = 2. -/
def cRug8 : Grid := mkGrid 8 8 fun y x =>
  if 2 ≤ y ∧ y ≤ 5 ∧ 2 ≤ x ∧ x ≤ 5 then 255 else 0

set_option maxRecDepth 200000 in
/-- Witness for C8 at ratios 1/10 ≤ 1/2 on the concrete mask. -/
theorem C8_border_monotone_witness :
    borderPixCount (flatBuild cRug8 8 8 (Rat.mk' 1 10) 2 none ("white_threshold")) ≤
      borderPixCount (flatBuild cRug8 8 8 (Rat.mk' 1 2) 2 none ("white_threshold")) :=
  C8_border_monotone cRug8 8 8 ("white_threshold") (Rat.mk' 1 10) (Rat.mk' 1 2)
    (by decide) (by decide) (by decide) (by decide)

/-- A mask value that is either 0 or 255. -/
def BinVal (v : ℕ) : Prop := v = 0 ∨ v = 255

theorem binval_mkGrid (h w : ℕ) (f : ℕ → ℕ → ℕ) (hf : ∀ a b, f a b = 0 ∨ f a b = 255)
    (y x : ℕ) : BinVal (gget (mkGrid h w f) y x) := by
  by_cases hy : y < h
  · by_cases hx : x < w
    · rw [gget_mkGrid _ _ _ y x hy hx]
      exact hf y x
    · rw [gget_default_of_col_oob _ h w y x (rectG_mkGrid h w f) (by omega)]
      exact Or.inl rfl
  · rw [gget_default_of_row_oob _ h w y x (rectG_mkGrid h w f) (by omega)]
    exact Or.inl rfl

theorem binval_ensureU8 (g : Grid) (h w y x : ℕ) : BinVal (gget (ensureU8 g h w) y x) := by
  unfold ensureU8
  refine binval_mkGrid h w _ ?_ y x
  intro a b
  by_cases hc : 0 < gget g a b
  · rw [if_pos hc]
    exact Or.inr rfl
  · rw [if_neg hc]
    exact Or.inl rfl

theorem binval_layerGridsAux (m : Grid) (h w maxSq : ℕ) (prev : ℚ) (rs : List ℚ)
    (g : Grid) (hg : g ∈ layerGridsAux m h w maxSq prev rs) (y x : ℕ) :
    BinVal (gget g y x) := by
  induction rs generalizing prev with
  | nil => simp [layerGridsAux] at hg
  | cons r rest ih =>
    unfold layerGridsAux at hg
    rcases List.mem_cons.mp hg with rfl | hg2
    · refine binval_mkGrid h w _ ?_ y x
      intro a b
      by_cases hc : (ratioLt prev maxSq (sqdt m h w a b) &&
          ratioGe r maxSq (sqdt m h w a b)) = true
      · rw [if_pos hc]
        exact Or.inr rfl
      · rw [if_neg hc]
        exact Or.inl rfl
    · exact ih r hg2

theorem binval_nil_gget (y x : ℕ) : BinVal (gget ([] : Grid) y x) := Or.inl rfl

theorem binval_flatBuild (rug : Grid) (h w : ℕ) (αv : ℚ) (lc : ℕ)
    (lrs : Option (List ℚ)) (mode : String) (y x : ℕ) :
    BinVal (gget (flatBuild rug h w αv lc lrs mode).rugMask y x) ∧
    BinVal (gget (flatBuild rug h w αv lc lrs mode).backgroundMask y x) ∧
    (∀ g ∈ (flatBuild rug h w αv lc lrs mode).layerMasks, BinVal (gget g y x)) ∧
    (∀ g, (flatBuild rug h w αv lc lrs mode).fieldMask = some g → BinVal (gget g y x)) ∧
    (∀ g, (flatBuild rug h w αv lc lrs mode).borderMask = some g → BinVal (gget g y x)) := by
  unfold flatBuild
  by_cases hthin : maxSqdt rug h w < 4
  · rw [if_pos hthin]
    dsimp only
    refine ⟨binval_ensureU8 _ _ _ _ _, binval_ensureU8 _ _ _ _ _, ?_, ?_, ?_⟩
    · intro g hg
      rw [List.mem_singleton] at hg
      subst hg
      exact binval_ensureU8 _ _ _ _ _
    · intro g hg
      have hg2 : g = ensureU8 rug h w := (Option.some.inj hg).symm
      subst hg2
      exact binval_ensureU8 _ _ _ _ _
    · intro g hg
      have hg2 : g = mkGrid h w fun _ _ => 0 := (Option.some.inj hg).symm
      subst hg2
      exact binval_mkGrid h w _ (fun _ _ => Or.inl rfl) y x
  · rw [if_neg hthin]
    dsimp only
    refine ⟨binval_ensureU8 _ _ _ _ _, binval_ensureU8 _ _ _ _ _, ?_, ?_, ?_⟩
    · intro g hg
      exact binval_layerGridsAux rug h w (maxSqdt rug h w) 0 _ g hg y x
    · intro g hg
      by_cases hlen : (currentRatios lc lrs αv).length = 2
      · rw [if_pos hlen] at hg
        have hg2 := (Option.some.inj hg).symm
        subst hg2
        by_cases hlt : 1 < (layerGridsAux rug h w (maxSqdt rug h w) 0
            (currentRatios lc lrs αv)).length
        · rw [List.getD_eq_getElem _ _ hlt]
          exact binval_layerGridsAux rug h w (maxSqdt rug h w) 0 _ _
            (List.getElem_mem hlt) y x
        · rw [List.getD_eq_default _ _ (by omega)]
          exact binval_nil_gget y x
      · rw [if_neg hlen] at hg
        exact absurd hg (Option.some_ne_none g).symm
    · intro g hg
      by_cases hlen : (currentRatios lc lrs αv).length = 2
      · rw [if_pos hlen] at hg
        have hg2 := (Option.some.inj hg).symm
        subst hg2
        by_cases hlt : 0 < (layerGridsAux rug h w (maxSqdt rug h w) 0
            (currentRatios lc lrs αv)).length
        · rw [List.getD_eq_getElem _ _ hlt]
          exact binval_layerGridsAux rug h w (maxSqdt rug h w) 0 _ _
            (List.getElem_mem hlt) y x
        · rw [List.getD_eq_default _ _ (by omega)]
          exact binval_nil_gget y x
      · rw [if_neg hlen] at hg
        exact absurd hg (Option.some_ne_none g).symm

/-- Claim C9: every mask of every LayerSet produced by segment_flat_design
(rug, background, each indexed layer, and the border/field entries when
present) takes only the values 0 and 255 at every position; on segmentation
failure the default empty result trivially satisfies the same property. -/
theorem C9_flat_masks_binary (img : Image) (alpha : Option Grid) (αv : ℚ) (wt lc : ℕ)
    (lrs : Option (List ℚ)) (y x : ℕ) :
    BinVal (gget ((segmentFlatDesign img alpha αv wt lc lrs).toOption.getD
        dfltFlat).rugMask y x) ∧
    BinVal (gget ((segmentFlatDesign img alpha αv wt lc lrs).toOption.getD
        dfltFlat).backgroundMask y x) ∧
    (∀ g ∈ ((segmentFlatDesign img alpha αv wt lc lrs).toOption.getD dfltFlat).layerMasks,
      BinVal (gget g y x)) ∧
    (∀ g, ((segmentFlatDesign img alpha αv wt lc lrs).toOption.getD dfltFlat).fieldMask =
      some g → BinVal (gget g y x)) ∧
    (∀ g, ((segmentFlatDesign img alpha αv wt lc lrs).toOption.getD dfltFlat).borderMask =
      some g → BinVal (gget g y x)) := by
  unfold segmentFlatDesign
  by_cases hc1 : 100 * fgCount (flatRug img alpha wt) (imgH img) (imgW img) <
      imgH img * imgW img ∨ imgH img * imgW img = 0
  · rw [if_pos hc1]
    refine ⟨Or.inl rfl, Or.inl rfl, ?_, ?_, ?_⟩
    · intro g hg
      simp [Except.toOption, dfltFlat] at hg
    · intro g hg
      simp [Except.toOption, dfltFlat] at hg
    · intro g hg
      simp [Except.toOption, dfltFlat] at hg
  · rw [if_neg hc1]
    by_cases hc2 : 99 * (imgH img * imgW img) <
        100 * fgCount (flatRug img alpha wt) (imgH img) (imgW img)
    · rw [if_pos hc2]
      refine ⟨Or.inl rfl, Or.inl rfl, ?_, ?_, ?_⟩
      · intro g hg
        simp [Except.toOption, dfltFlat] at hg
      · intro g hg
        simp [Except.toOption, dfltFlat] at hg
      · intro g hg
        simp [Except.toOption, dfltFlat] at hg
    · rw [if_neg hc2]
      exact binval_flatBuild (flatRug img alpha wt) (imgH img) (imgW img) αv lc lrs
        (flatStep1 img alpha wt).2 y x

/-! ## Rule-based segmenter (app/service/segmentation/rule_segmenter.py)
Medians are carried doubled (median2 is twice the numpy median: for an even
sample count, the sum of the two middle values), so the corner-colour test
`dist <= 26.0` becomes the exact integer test sum of (2c - median2)^2 <=
4 * 26^2 = 2704, and the brightness tests `mean >= 200` / `>= 248` become
channel sums >= 600 / >= 744. -/

/-- RGB view of a BGR pixel (`img[:, :, ::-1]`). -/
def rgbOf (p : Px) : Px := (p.2.2, p.2.1, p.1)

/-- Corner patch size: max(4, round(min(h,w) * 0.06)) capped at h and w.
Python rounds the float64 product min(h,w)*0.06 (0.06 is not exactly
representable); this model rounds the exact rational min*6/100 half-to-even.
The two differ only when the exact product is a half-integer whose float64
image falls below it (e.g. min dim 125: model 8, float64 7); no theorem below
evaluates such a dimension. -/
def cornerPatch (h w : ℕ) : ℕ := min (min (max 4 (rneDiv (min h w * 6) 100)) h) w

/-- The concatenated p×p corner samples (RGB), in the source's patch order. -/
def cornerSamples (img : Image) (h w p : ℕ) : List Px :=
  ((List.range p).flatMap fun dy => (List.range p).map fun dx =>
    rgbOf (pget img dy dx)) ++
  ((List.range p).flatMap fun dy => (List.range p).map fun dx =>
    rgbOf (pget img dy (w - p + dx))) ++
  ((List.range p).flatMap fun dy => (List.range p).map fun dx =>
    rgbOf (pget img (h - p + dy) dx)) ++
  ((List.range p).flatMap fun dy => (List.range p).map fun dx =>
    rgbOf (pget img (h - p + dy) (w - p + dx)))

/-- Twice the numpy median of a list of naturals. -/
def median2 (l : List ℕ) : ℕ :=
  let s := l.insertionSort fun a b => a ≤ b
  if s.length % 2 = 1 then 2 * s.getD (s.length / 2) 0
  else s.getD (s.length / 2 - 1) 0 + s.getD (s.length / 2) 0

/-- Doubled corner-median background colour estimate (RGB). -/
def bgRgb2 (img : Image) (h w : ℕ) : Px :=
  (median2 ((cornerSamples img h w (cornerPatch h w)).map fun q => q.1),
   median2 ((cornerSamples img h w (cornerPatch h w)).map fun q => q.2.1),
   median2 ((cornerSamples img h w (cornerPatch h w)).map fun q => q.2.2))

/-- Background detection of segment_rug_layers: close to the corner colour and
bright, or near white. -/
def ruleBgMask (img : Image) (h w : ℕ) : Grid :=
  mkGrid h w fun y x =>
    if ((2 * ((rgbOf (pget img y x)).1 : ℤ) - ((bgRgb2 img h w).1 : ℤ)) ^ 2 +
        (2 * ((rgbOf (pget img y x)).2.1 : ℤ) - ((bgRgb2 img h w).2.1 : ℤ)) ^ 2 +
        (2 * ((rgbOf (pget img y x)).2.2 : ℤ) - ((bgRgb2 img h w).2.2 : ℤ)) ^ 2 ≤ 2704 ∧
        600 ≤ (rgbOf (pget img y x)).1 + (rgbOf (pget img y x)).2.1 +
          (rgbOf (pget img y x)).2.2) ∨
        744 ≤ (rgbOf (pget img y x)).1 + (rgbOf (pget img y x)).2.1 +
          (rgbOf (pget img y x)).2.2
      then 255 else 0

/-- `_dilate`: every pixel whose clamped radius-r box contains a positive
pixel of the mask (the source paints a box around every positive pixel). -/
def dilateR (m : Grid) (h w r : ℕ) : Grid :=
  if r = 0 then m
  else mkGrid h w fun y x =>
    if ((List.range (2 * r + 1)).any fun dy => (List.range (2 * r + 1)).any fun dx =>
        decide (r ≤ y + dy) && decide (r ≤ x + dx) &&
          decide (y + dy ≤ h - 1 + r) && decide (x + dx ≤ w - 1 + r) &&
          decide (0 < gget m (y + dy - r) (x + dx - r))) then 255 else 0

/-- `_erode`: every pixel whose clamped radius-r box contains a zero pixel of
the mask becomes 0, the rest stay 255. -/
def erodeR (m : Grid) (h w r : ℕ) : Grid :=
  if r = 0 then m
  else mkGrid h w fun y x =>
    if ((List.range (2 * r + 1)).any fun dy => (List.range (2 * r + 1)).any fun dx =>
        decide (r ≤ y + dy) && decide (r ≤ x + dx) &&
          decide (y + dy ≤ h - 1 + r) && decide (x + dx ≤ w - 1 + r) &&
          decide (gget m (y + dy - r) (x + dx - r) = 0)) then 0 else 255

/-- `_close`: erode after dilate with the same radius. -/
def closeR (m : Grid) (h w r : ℕ) : Grid := erodeR (dilateR m h w r) h w r

/-- `np.clip(a int16 - b int16, 0, 255).astype(np.uint8)` per pixel. -/
def clipSub (a b : ℕ) : ℕ := Int.toNat (min 255 (max 0 ((a : ℤ) - (b : ℤ))))

structure RugLayers where
  backgroundMask : Grid
  rugMask : Grid
  borderMask : Grid
  fieldMask : Grid

/-- segment_rug_layers: corner-median background colour, largest component of
the non-background pixels, radius-3 close, then border = clip(ring - inner)
with ring = dilate(rug, max(2, round(min*0.02))) and inner = erode(rug,
max(2, round(min*0.04))), field = clip(rug - border), background = rug == 0;
all four outputs pass through _ensure_u8_mask. -/
def segmentRugLayers (imgBgr : Image) : RugLayers :=
  let h := imgH imgBgr
  let w := imgW imgBgr
  let bg := ruleBgMask imgBgr h w
  let rug0 := mkGrid h w fun y x => if gget bg y x = 0 then 255 else 0
  let rug := closeR (largestCC rug0 h w) h w 3
  let ring := dilateR rug h w (max 2 (rneDiv (min h w * 2) 100))
  let inner := erodeR rug h w (max 2 (rneDiv (min h w * 4) 100))
  let border := mkGrid h w fun y x => clipSub (gget ring y x) (gget inner y x)
  let field := mkGrid h w fun y x => clipSub (gget rug y x) (gget border y x)
  let background := mkGrid h w fun y x => if gget rug y x = 0 then 255 else 0
  { backgroundMask := ensureU8 background h w, rugMask := ensureU8 rug h w,
    borderMask := ensureU8 border h w, fieldMask := ensureU8 field h w }

/-- A 9×9 all-white image with a single black pixel at (4,4). -/
def cImg9 : Image := mkImage 9 9 fun y x =>
  if y = 4 ∧ x = 4 then (0, 0, 0) else (255, 255, 255)

set_option maxRecDepth 1000000 in
/-- Counterexample to claim C1 as stated for segment_rug_layers: at pixel
(2,2) of the 9×9 image, the border mask (a dilated ring extending beyond the
rug) and the background mask are both positive, so the 0/1 indicators of the
named layer masks (border, field, background) sum to 2, not 1. -/
theorem C1_counterexample :
    indPos (gget (segmentRugLayers cImg9).borderMask 2 2) +
      indPos (gget (segmentRugLayers cImg9).fieldMask 2 2) +
      indPos (gget (segmentRugLayers cImg9).backgroundMask 2 2) = 2 := by decide

/-- A 6×6 all-white image with a black 2×2 block. -/
def cImg6 : Image := mkImage 6 6 fun y x =>
  if 2 ≤ y ∧ y ≤ 3 ∧ 2 ≤ x ∧ x ≤ 3 then (0, 0, 0) else (255, 255, 255)

set_option maxRecDepth 1000000 in
/-- Witness for the amended C1 on a concrete white-background image, at
pixel (2,2). -/
theorem C1_flat_partition_witness :
    layerIndSum ((segmentFlatDesign cImg6 none (Rat.mk' 11 50) 250 2 none).toOption.getD
      dfltFlat) 2 2 +
      indPos (gget ((segmentFlatDesign cImg6 none (Rat.mk' 11 50) 250 2
        none).toOption.getD dfltFlat).backgroundMask 2 2) = 1 :=
  C1_flat_partition cImg6 none (Rat.mk' 11 50) 250 2 none (by decide)
    (by intro rs hcon; cases hcon) (by decide) 2 2 (by decide) (by decide)

/-- Witness for C9: the rug mask value at (0,0) of a concretely produced
LayerSet is 0 or 255. -/
theorem C9_flat_masks_binary_witness :
    BinVal (gget ((segmentFlatDesign cImg6 none (Rat.mk' 11 50) 250 2 none).toOption.getD
      dfltFlat).rugMask 0 0) :=
  (C9_flat_masks_binary cImg6 none (Rat.mk' 11 50) 250 2 none 0 0).1

end PictureAi
